import Mathlib

set_option maxHeartbeats 1000000

/-!
Verification of the Dynamic Inventory Management system (directory `Phase_3`
of the repository) against its natural-language specification.

The development shallowly embeds the Python source:

* `avl_tree.py` — the price-keyed AVL tree (`PriceIndex`);
* `range_tree.py` — the unbalanced multi-attribute tree (`AttributeIndex`);
* `double_ended_priority_queue.py` — the dual-heap queue over CPython's
  `heapq` algorithms (`DualHeapQueue`);
* `heap_handler.py` and the operation branches of `phase3.py` — the
  coordinator operations add/update/delete.

Numeric prices (Python floats constrained to ordinary numeric use) are
modeled as `Int`; only their ordering matters to every claim considered.
Python `dict` records are modeled as a `Product` structure (for fixed-shape
records) or association lists (where key lookup can fail).
-/

/-- Record stored by the system; mirrors the Python dict
`{'id': …, 'name': …, 'category': …, 'price': …, 'quantity': …}` that
`heap_handler.add_product_with_heap` and `phase3.py` construct. -/
structure Product where
  id : Nat
  name : String
  category : String
  price : Int
  quantity : Int
deriving DecidableEq, Repr

/-- AVL tree (`avl_tree.AVLNode` linked structure): price key, product
payload, children and the stored `height` field (`1` on node creation).
`nil` is Python `None`. -/
inductive AVL where
  | nil : AVL
  | node (price : Int) (product : Product) (left right : AVL) (height : Nat) : AVL
deriving DecidableEq, Repr

namespace AVL

/-- Mirrors `AVLTree.get_height`: `0` for `None`, else the stored height. -/
def get_height : AVL → Nat
  | nil => 0
  | node _ _ _ _ h => h

/-- Mirrors `AVLTree.get_balance`: stored height of the left child minus
stored height of the right child (a possibly negative integer); `0` for
`None`. -/
def get_balance : AVL → Int
  | nil => 0
  | node _ _ l r _ => (get_height l : Int) - get_height r

/-- Mirrors `AVLTree.rotate_left` (`y = z.right; T2 = y.left; y.left = z;
z.right = T2`, then both heights are recomputed from the stored heights of
the new children).  Python assumes `z.right` is not `None`, which every call
site guarantees through the balance guard; on other shapes the model returns
the input unchanged. -/
def rotate_left : AVL → AVL
  | node zp zpr zl (node yp ypr t2 yr _) _ =>
      let z := node zp zpr zl t2 (1 + max (get_height zl) (get_height t2))
      node yp ypr z yr (1 + max (get_height z) (get_height yr))
  | t => t

/-- Mirrors `AVLTree.rotate_right` (`y = z.left; T3 = y.right; y.right = z;
z.left = T3`, heights recomputed), with the same convention as
`rotate_left` for the shapes Python would crash on. -/
def rotate_right : AVL → AVL
  | node zp zpr (node yp ypr yl t3 _) zr _ =>
      let z := node zp zpr t3 zr (1 + max (get_height t3) (get_height zr))
      node yp ypr yl z (1 + max (get_height yl) (get_height z))
  | t => t

/-- The comparison `price < root.left.price` used by the rotation-case
dispatch; `false` on `None` (Python would raise there, unreachable under the
`balance > 1` guard). -/
def lt_root_key (price : Int) : AVL → Bool
  | nil => false
  | node k _ _ _ _ => price < k

/-- The comparison `price > root.left.price` (and symmetrically for the
right child) used by the rotation-case dispatch. -/
def gt_root_key (price : Int) : AVL → Bool
  | nil => false
  | node k _ _ _ _ => k < price

/-- Lines 68-90 of `avl_tree.py`: after the recursive insertion the node's
height is recomputed, the balance factor is taken, and one of the four
rotation cases (left-left, right-right, left-right, right-left) fires, the
last two rotating the child first. -/
def balanceAfter (root : AVL) (price : Int) : AVL :=
  match root with
  | nil => nil
  | node rp rpr l r _ =>
    let h := 1 + max (get_height l) (get_height r)
    let balance : Int := (get_height l : Int) - get_height r
    if 1 < balance ∧ lt_root_key price l then rotate_right (node rp rpr l r h)
    else if balance < -1 ∧ gt_root_key price r then rotate_left (node rp rpr l r h)
    else if 1 < balance ∧ gt_root_key price l then
      rotate_right (node rp rpr (rotate_left l) r h)
    else if balance < -1 ∧ lt_root_key price r then
      rotate_left (node rp rpr l (rotate_right r) h)
    else node rp rpr l r h

/-- Mirrors `AVLTree.insert` (lines 52-90 of `avl_tree.py`): BST descent on
the price (an equal price returns the subtree unchanged, silently dropping
the new record), then the height/balance bookkeeping of `balanceAfter`. -/
def insert : AVL → Int → Product → AVL
  | nil, price, product => node price product nil nil 1
  | node rp rpr l r rh, price, product =>
    if price < rp then
      balanceAfter (node rp rpr (insert l price product) r rh) price
    else if rp < price then
      balanceAfter (node rp rpr l (insert r price product) rh) price
    else
      node rp rpr l r rh

/-- Mirrors `AVLTree._get_products_in_range_recursive` (lines 29-50): the
node's product is emitted first (when `low ≤ price ≤ high`), then the left
recursion (only when `low < price`), then the right (only when
`price < high`). -/
def get_products_in_range_recursive : AVL → Int → Int → List Product
  | nil, _, _ => []
  | node p pr l r _, low, high =>
    (if low ≤ p ∧ p ≤ high then [pr] else [])
      ++ (if low < p then get_products_in_range_recursive l low high else [])
      ++ (if p < high then get_products_in_range_recursive r low high else [])

/-- All `(price, product)` pairs of a tree, in the node-left-right order in
which the range query visits them. -/
def elems : AVL → List (Int × Product)
  | nil => []
  | node p pr l r _ => (p, pr) :: (elems l ++ elems r)

/-- The price keys of a tree. -/
def keys (t : AVL) : List Int := (elems t).map Prod.fst

/-- Binary-search-tree ordering invariant with strict separation (the source
never stores two nodes of equal price: `insert` drops equal-price
insertions). -/
def IsBST : AVL → Prop
  | nil => True
  | node p _ l r _ =>
      (∀ k ∈ keys l, k < p) ∧ (∀ k ∈ keys r, p < k) ∧ IsBST l ∧ IsBST r

/-- Stored-height correctness: every node's `height` field equals
`1 + max (height left) (height right)`, the empty subtree having height 0. -/
def HeightsOK : AVL → Prop
  | nil => True
  | node _ _ l r h =>
      h = 1 + max (get_height l) (get_height r) ∧ HeightsOK l ∧ HeightsOK r

/-- AVL balance invariant: at every node the stored heights of the two
children differ by at most one. -/
def BalancedOK : AVL → Prop
  | nil => True
  | node _ _ l r _ =>
      |(get_height l : Int) - get_height r| ≤ 1 ∧ BalancedOK l ∧ BalancedOK r

/-- A tree obtained from the empty tree by a sequence of inserts, as the
coordinator produces on successive `addProduct` calls. -/
def buildTree (l : List (Int × Product)) : AVL :=
  l.foldl (fun t e => insert t e.1 e.2) nil

end AVL

namespace AVL

theorem keys_nil : keys nil = [] := rfl

theorem keys_node (p : Int) (pr : Product) (l r : AVL) (h : Nat) :
    keys (node p pr l r h) = p :: (keys l ++ keys r) := by
  simp [keys, elems]

theorem mem_elems_rotate_left (t : AVL) (e : Int × Product) :
    e ∈ elems (rotate_left t) ↔ e ∈ elems t := by
  cases t with
  | nil => simp [rotate_left]
  | node p pr l r h =>
    cases r with
    | nil => simp [rotate_left]
    | node rp rpr rl rr rh =>
      simp only [rotate_left, elems, List.mem_cons, List.mem_append]
      tauto

theorem mem_elems_rotate_right (t : AVL) (e : Int × Product) :
    e ∈ elems (rotate_right t) ↔ e ∈ elems t := by
  cases t with
  | nil => simp [rotate_right]
  | node p pr l r h =>
    cases l with
    | nil => simp [rotate_right]
    | node lp lpr ll lr lh =>
      simp only [rotate_right, elems, List.mem_cons, List.mem_append]
      tauto

theorem mem_keys_rotate_left (t : AVL) (k : Int) :
    k ∈ keys (rotate_left t) ↔ k ∈ keys t := by
  simp [keys, List.mem_map, mem_elems_rotate_left]

theorem mem_keys_rotate_right (t : AVL) (k : Int) :
    k ∈ keys (rotate_right t) ↔ k ∈ keys t := by
  simp [keys, List.mem_map, mem_elems_rotate_right]

theorem isBST_rotate_left (t : AVL) (h : IsBST t) : IsBST (rotate_left t) := by
  cases t with
  | nil => exact h
  | node p pr l r ht =>
    cases r with
    | nil => exact h
    | node rp rpr rl rr rh =>
      obtain ⟨hl, hr, bl, br⟩ := h
      obtain ⟨hrl, hrr, brl, brr⟩ := br
      have hprp : p < rp := hr rp (by simp [keys_node])
      refine ⟨?_, ?_, ⟨hl, ?_, bl, brl⟩, brr⟩
      · intro k hk
        rw [keys_node] at hk
        rcases List.mem_cons.mp hk with rfl | hk2
        · exact hprp
        · rcases List.mem_append.mp hk2 with hk3 | hk3
          · exact lt_trans (hl k hk3) hprp
          · exact hrl k hk3
      · exact hrr
      · intro k hk
        exact hr k (by rw [keys_node]; simp; tauto)

theorem isBST_rotate_right (t : AVL) (h : IsBST t) : IsBST (rotate_right t) := by
  cases t with
  | nil => exact h
  | node p pr l r ht =>
    cases l with
    | nil => exact h
    | node lp lpr ll lr lh =>
      obtain ⟨hl, hr, bl, br⟩ := h
      obtain ⟨hll, hlr, bll, blr⟩ := bl
      have hlpp : lp < p := hl lp (by simp [keys_node])
      refine ⟨hll, ?_, bll, ⟨?_, hr, blr, br⟩⟩
      · intro k hk
        rw [keys_node] at hk
        rcases List.mem_cons.mp hk with rfl | hk2
        · exact hlpp
        · rcases List.mem_append.mp hk2 with hk3 | hk3
          · exact hlr k hk3
          · exact lt_trans hlpp (hr k hk3)
      · intro k hk
        exact hl k (by rw [keys_node]; simp; tauto)

theorem mem_elems_balanceAfter (price p : Int) (pr : Product) (l r : AVL) (h : Nat)
    (e : Int × Product) :
    e ∈ elems (balanceAfter (node p pr l r h) price) ↔ e ∈ elems (node p pr l r h) := by
  show e ∈ elems (balanceAfter (node p pr l r h) price) ↔ _
  unfold balanceAfter
  dsimp only
  split_ifs with h1 h2 h3 h4
  · rw [mem_elems_rotate_right]; simp [elems]
  · rw [mem_elems_rotate_left]; simp [elems]
  · rw [mem_elems_rotate_right]
    simp only [elems, List.mem_cons, List.mem_append, mem_elems_rotate_left]
  · rw [mem_elems_rotate_left]
    simp only [elems, List.mem_cons, List.mem_append, mem_elems_rotate_right]
  · simp [elems]

theorem mem_keys_balanceAfter (price p : Int) (pr : Product) (l r : AVL) (h : Nat) (k : Int) :
    k ∈ keys (balanceAfter (node p pr l r h) price) ↔ k ∈ keys (node p pr l r h) := by
  simp [keys, List.mem_map, mem_elems_balanceAfter]

theorem isBST_balanceAfter (price p : Int) (pr : Product) (l r : AVL) (h : Nat)
    (hb : IsBST (node p pr l r h)) : IsBST (balanceAfter (node p pr l r h) price) := by
  obtain ⟨hl, hr, bl, br⟩ := hb
  unfold balanceAfter
  dsimp only
  split_ifs with h1 h2 h3 h4
  · exact isBST_rotate_right _ ⟨hl, hr, bl, br⟩
  · exact isBST_rotate_left _ ⟨hl, hr, bl, br⟩
  · refine isBST_rotate_right _ ⟨?_, hr, isBST_rotate_left _ bl, br⟩
    intro k hk
    exact hl k ((mem_keys_rotate_left l k).mp hk)
  · refine isBST_rotate_left _ ⟨hl, ?_, bl, isBST_rotate_right _ br⟩
    intro k hk
    exact hr k ((mem_keys_rotate_right r k).mp hk)
  · exact ⟨hl, hr, bl, br⟩

theorem mem_keys_insert (t : AVL) (p : Int) (pr : Product) (k : Int)
    (hk : k ∈ keys (insert t p pr)) : k = p ∨ k ∈ keys t := by
  induction t with
  | nil => simp [insert, keys_node, keys_nil] at hk; tauto
  | node rp rpr l r rh ihl ihr =>
    unfold insert at hk
    split_ifs at hk with h1 h2
    · rw [mem_keys_balanceAfter, keys_node] at hk
      rcases List.mem_cons.mp hk with rfl | hk2
      · simp [keys_node]
      · rcases List.mem_append.mp hk2 with hk3 | hk3
        · rcases ihl hk3 with rfl | hk4
          · exact Or.inl rfl
          · right; simp [keys_node]; tauto
        · right; simp [keys_node]; tauto
    · rw [mem_keys_balanceAfter, keys_node] at hk
      rcases List.mem_cons.mp hk with rfl | hk2
      · simp [keys_node]
      · rcases List.mem_append.mp hk2 with hk3 | hk3
        · right; simp [keys_node]; tauto
        · rcases ihr hk3 with rfl | hk4
          · exact Or.inl rfl
          · right; simp [keys_node]; tauto
    · exact Or.inr hk

theorem isBST_insert (t : AVL) (p : Int) (pr : Product) (hb : IsBST t) :
    IsBST (insert t p pr) := by
  induction t with
  | nil => refine ⟨?_, ?_, trivial, trivial⟩ <;> simp [keys_nil]
  | node rp rpr l r rh ihl ihr =>
    obtain ⟨hl, hr, bl, br⟩ := hb
    unfold insert
    split_ifs with h1 h2
    · apply isBST_balanceAfter
      refine ⟨?_, hr, ihl bl, br⟩
      intro k hk
      rcases mem_keys_insert l p pr k hk with rfl | hk2
      · exact h1
      · exact hl k hk2
    · apply isBST_balanceAfter
      refine ⟨hl, ?_, bl, ihr br⟩
      intro k hk
      rcases mem_keys_insert r p pr k hk with rfl | hk2
      · exact h2
      · exact hr k hk2
    · exact ⟨hl, hr, bl, br⟩

theorem mem_elems_insert (t : AVL) (p : Int) (pr : Product) (hb : IsBST t)
    (e : Int × Product) :
    e ∈ elems (insert t p pr) ↔ e ∈ elems t ∨ (e = (p, pr) ∧ p ∉ keys t) := by
  induction t with
  | nil => simp [insert, elems, keys_nil]
  | node rp rpr l r rh ihl ihr =>
    obtain ⟨hl, hr, bl, br⟩ := hb
    unfold insert
    split_ifs with h1 h2
    · rw [mem_elems_balanceAfter]
      have hne : p ≠ rp := ne_of_lt h1
      have hpr : p ∉ keys r := fun hm => absurd (hr p hm) (by omega)
      simp only [elems, List.mem_cons, List.mem_append, ihl bl, keys_node]
      tauto
    · rw [mem_elems_balanceAfter]
      have hne : p ≠ rp := fun hq => absurd hq (by omega)
      have hpl : p ∉ keys l := fun hm => absurd (hl p hm) (by omega)
      simp only [elems, List.mem_cons, List.mem_append, ihr br, keys_node]
      tauto
    · have hp : p = rp := by omega
      subst hp
      simp [elems, keys_node]

theorem isBST_foldl (l : List (Int × Product)) (t : AVL) (hb : IsBST t) :
    IsBST (l.foldl (fun t e => insert t e.1 e.2) t) := by
  induction l generalizing t with
  | nil => exact hb
  | cons e rest ih => exact ih _ (isBST_insert _ _ _ hb)

theorem isBST_buildTree (l : List (Int × Product)) : IsBST (buildTree l) :=
  isBST_foldl l nil trivial

theorem mem_elems_foldl (l : List (Int × Product)) (t : AVL) (hb : IsBST t)
    (hd : (l.map Prod.fst).Pairwise (· ≠ ·))
    (hfresh : ∀ q ∈ l.map Prod.fst, q ∉ keys t) (e : Int × Product) :
    e ∈ elems (l.foldl (fun t e => insert t e.1 e.2) t) ↔ e ∈ elems t ∨ e ∈ l := by
  induction l generalizing t with
  | nil => simp
  | cons e0 rest ih =>
    simp only [List.map_cons, List.pairwise_cons] at hd
    obtain ⟨hd0, hd1⟩ := hd
    have hb1 : IsBST (insert t e0.1 e0.2) := isBST_insert _ _ _ hb
    have h0 : e0.1 ∉ keys t := hfresh e0.1 (by simp)
    have hfresh1 : ∀ q ∈ rest.map Prod.fst, q ∉ keys (insert t e0.1 e0.2) := by
      intro q hq hmem
      rcases mem_keys_insert t e0.1 e0.2 q hmem with rfl | hk
      · exact hd0 _ hq rfl
      · exact hfresh q (by simp; right; simpa using hq) hk
    rw [List.foldl_cons, ih _ hb1 hd1 hfresh1, mem_elems_insert t _ _ hb]
    simp only [List.mem_cons, h0, not_false_iff, and_true]
    constructor
    · rintro ((h | h) | h)
      · exact Or.inl h
      · right; left; simpa using h
      · right; right; exact h
    · rintro (h | h | h)
      · exact Or.inl (Or.inl h)
      · left; right; simpa using h.symm ▸ rfl
      · exact Or.inr h

theorem mem_elems_buildTree (l : List (Int × Product))
    (hd : (l.map Prod.fst).Pairwise (· ≠ ·)) (e : Int × Product) :
    e ∈ elems (buildTree l) ↔ e ∈ l := by
  have h := mem_elems_foldl l nil trivial hd (by simp [keys_nil]) e
  simpa [buildTree, elems] using h

theorem fst_mem_keys {t : AVL} {e : Int × Product} (he : e ∈ elems t) : e.1 ∈ keys t := by
  rw [keys]; exact List.mem_map_of_mem Prod.fst he

theorem range_eq_filter (t : AVL) (hb : IsBST t) (low high : Int) :
    get_products_in_range_recursive t low high
      = ((elems t).filter (fun e => decide (low ≤ e.1) && decide (e.1 ≤ high))).map Prod.snd := by
  induction t with
  | nil => simp [get_products_in_range_recursive, elems]
  | node p pr l r h ihl ihr =>
    obtain ⟨hl, hr, bl, br⟩ := hb
    have Hl : (if low < p then get_products_in_range_recursive l low high else [])
        = ((elems l).filter (fun e => decide (low ≤ e.1) && decide (e.1 ≤ high))).map Prod.snd := by
      by_cases cl : low < p
      · simpa [cl] using ihl bl
      · have hnil : (elems l).filter (fun e => decide (low ≤ e.1) && decide (e.1 ≤ high)) = [] := by
          rw [List.filter_eq_nil_iff]
          intro e he
          have hlt : e.1 < p := hl e.1 (fst_mem_keys he)
          simp only [Bool.and_eq_true, decide_eq_true_eq, not_and]
          omega
        simp [cl, hnil]
    have Hr : (if p < high then get_products_in_range_recursive r low high else [])
        = ((elems r).filter (fun e => decide (low ≤ e.1) && decide (e.1 ≤ high))).map Prod.snd := by
      by_cases cr : p < high
      · simpa [cr] using ihr br
      · have hnil : (elems r).filter (fun e => decide (low ≤ e.1) && decide (e.1 ≤ high)) = [] := by
          rw [List.filter_eq_nil_iff]
          intro e he
          have hlt : p < e.1 := hr e.1 (fst_mem_keys he)
          simp only [Bool.and_eq_true, decide_eq_true_eq, not_and]
          omega
        simp [cr, hnil]
    simp only [get_products_in_range_recursive, elems, List.filter_cons, List.filter_append]
    by_cases ch : low ≤ p ∧ p ≤ high
    · simp [ch.1, ch.2, Hl, Hr, ch]
    · have ch2 : ¬(low ≤ p) ∨ ¬(p ≤ high) := by tauto
      rcases ch2 with hc | hc
      · simp [ch, hc, Hl, Hr]
      · simp [ch, hc, Hl, Hr]

theorem mem_range_buildTree (l : List (Int × Product))
    (hd : (l.map Prod.fst).Pairwise (· ≠ ·)) (low high : Int) (x : Product) :
    x ∈ get_products_in_range_recursive (buildTree l) low high ↔
      ∃ q, (q, x) ∈ l ∧ low ≤ q ∧ q ≤ high := by
  rw [range_eq_filter _ (isBST_buildTree l)]
  constructor
  · intro hx
    rcases List.mem_map.mp hx with ⟨e, he, rfl⟩
    rcases List.mem_filter.mp he with ⟨he1, he2⟩
    have hmem : e ∈ l := (mem_elems_buildTree l hd e).mp he1
    simp only [Bool.and_eq_true, decide_eq_true_eq] at he2
    exact ⟨e.1, by simpa using hmem, he2.1, he2.2⟩
  · rintro ⟨q, hql, h1, h2⟩
    apply List.mem_map.mpr
    refine ⟨(q, x), List.mem_filter.mpr ⟨(mem_elems_buildTree l hd _).mpr hql, ?_⟩, rfl⟩
    simp [h1, h2]

theorem range_empty_of_lt (t : AVL) (low high : Int) (h : high < low) :
    get_products_in_range_recursive t low high = [] := by
  induction t with
  | nil => rfl
  | node p pr l r ht ihl ihr =>
    simp only [get_products_in_range_recursive]
    have hc : ¬(low ≤ p ∧ p ≤ high) := by omega
    simp [hc, ihl, ihr]

end AVL

/-- Sample record at price 100 (id 301), used in concrete scenarios. -/
def prodA : Product := ⟨301, "Laptop", "Electronics", 100, 10⟩

/-- Sample record at price 50 (id 302). -/
def prodB : Product := ⟨302, "Phone", "Electronics", 50, 20⟩

/-- Sample record at price 150 (id 303). -/
def prodC : Product := ⟨303, "Monitor", "Electronics", 150, 30⟩

/-- Sample record that duplicates the price of `prodA` (id 304). -/
def prodD : Product := ⟨304, "Tablet", "Electronics", 100, 5⟩

/-- C4, counterexample to the claim as stated: inserting two records at the
same price 100 silently drops the second (`AVLTree.insert` returns the
subtree unchanged on an equal key), so `rangeQuery(0, 200)` does not return
the set of all inserted records whose price lies in the bounds: the pair
`(100, prodD)` was inserted with `0 ≤ 100 ≤ 200`, yet `prodD` is missing
from the result. -/
theorem C4_counterexample :
    (100, prodD) ∈ [((100 : Int), prodA), (100, prodD)] ∧ (0 : Int) ≤ 100 ∧ (100 : Int) ≤ 200 ∧
      prodD ∉ AVL.get_products_in_range_recursive
        (AVL.buildTree [(100, prodA), (100, prodD)]) 0 200 := by
  decide

/-- C4 (amended: restricted to insertion sequences whose prices are pairwise
distinct, since the source drops an insert whose price is already present):
for every such sequence, `rangeQuery(root, low, high)` returns exactly the
inserted records whose price satisfies `low ≤ price ≤ high` — membership in
the result depends only on which pairs were inserted, not on their order —
and when `low > high` the result is the empty sequence rather than an
error. -/
theorem C4_range_query_exact (l : List (Int × Product))
    (hd : (l.map Prod.fst).Pairwise (· ≠ ·)) (low high : Int) :
    (∀ x : Product,
      x ∈ AVL.get_products_in_range_recursive (AVL.buildTree l) low high ↔
        ∃ q, (q, x) ∈ l ∧ low ≤ q ∧ q ≤ high)
    ∧ (high < low → AVL.get_products_in_range_recursive (AVL.buildTree l) low high = []) :=
  ⟨fun x => AVL.mem_range_buildTree l hd low high x,
   fun h => AVL.range_empty_of_lt _ _ _ h⟩

/-- C4 witness: the amended theorem applied to the spec's second example
scenario (prices 50/150/250 at ids 201/202/203, query [100, 200]). -/
theorem C4_range_query_exact_witness :
    (([((50 : Int), prodA), (150, prodB), (250, prodC)].map Prod.fst).Pairwise (· ≠ ·)) ∧
    ((∀ x : Product,
      x ∈ AVL.get_products_in_range_recursive
          (AVL.buildTree [((50 : Int), prodA), (150, prodB), (250, prodC)]) 100 200 ↔
        ∃ q, (q, x) ∈ [((50 : Int), prodA), (150, prodB), (250, prodC)] ∧ 100 ≤ q ∧ q ≤ 200)
    ∧ ((200 : Int) < 100 → AVL.get_products_in_range_recursive
          (AVL.buildTree [((50 : Int), prodA), (150, prodB), (250, prodC)]) 100 200 = [])) :=
  ⟨by decide, C4_range_query_exact [((50 : Int), prodA), (150, prodB), (250, prodC)]
    (by decide) 100 200⟩

/-- C5, counterexample to the claim as stated: the traversal emits the node's
own record before its left subtree's, so after inserting price 100 and then
price 50, the full-range query returns prices `[100, 50]` — not ascending. -/
theorem C5_counterexample :
    ¬ ((AVL.get_products_in_range_recursive (AVL.buildTree [((100 : Int), prodA), (50, prodB)])
          0 200).map Product.price).Pairwise (· ≤ ·) := by
  decide

/-- C5 (amended): the range query emits records in node-left-right order —
the pruned-preorder filter of the tree's element list, so the node's record
precedes its left subtree's and the output is not ascending by price in
general.  On the spec's example (prices [100, 50, 150] at ids
[301, 302, 303], query (60, 160)) the result happens to be exactly ids
[301, 303], matching the spec's expected output. -/
theorem C5_emission_order (l : List (Int × Product)) (low high : Int) :
    (AVL.get_products_in_range_recursive (AVL.buildTree l) low high
      = ((AVL.elems (AVL.buildTree l)).filter
          (fun e => decide (low ≤ e.1) && decide (e.1 ≤ high))).map Prod.snd)
    ∧ ((AVL.get_products_in_range_recursive
         (AVL.buildTree [((100 : Int), prodA), (50, prodB), (150, prodC)]) 60 160).map Product.id
        = [301, 303]) :=
  ⟨AVL.range_eq_filter _ (AVL.isBST_buildTree l) low high, by decide⟩

namespace AVL

theorem get_height_node (p : Int) (pr : Product) (l r : AVL) (h : Nat) :
    get_height (node p pr l r h) = h := rfl

theorem balanceAfter_id (rp : Int) (rpr : Product) (l r : AVL) (rh : Nat) (price : Int)
    (h1 : ¬ (1 < (get_height l : Int) - get_height r))
    (h2 : ¬ ((get_height l : Int) - get_height r < -1)) :
    balanceAfter (node rp rpr l r rh) price
      = node rp rpr l r (1 + max (get_height l) (get_height r)) := by
  unfold balanceAfter
  dsimp only
  split_ifs with c1 c2 c3 c4
  · exact absurd c1.1 h1
  · exact absurd c2.1 h2
  · exact absurd c3.1 h1
  · exact absurd c4.1 h2
  · rfl

theorem balanceAfter_ll (rp : Int) (rpr : Product) (l r : AVL) (rh : Nat) (price : Int)
    (h1 : 1 < (get_height l : Int) - get_height r)
    (h2 : lt_root_key price l = true) :
    balanceAfter (node rp rpr l r rh) price
      = rotate_right (node rp rpr l r (1 + max (get_height l) (get_height r))) := by
  unfold balanceAfter
  dsimp only
  split_ifs with c1 c2 c3 c4
  · rfl
  all_goals exact absurd ⟨h1, h2⟩ c1

theorem balanceAfter_rr (rp : Int) (rpr : Product) (l r : AVL) (rh : Nat) (price : Int)
    (h1 : (get_height l : Int) - get_height r < -1)
    (h2 : gt_root_key price r = true) :
    balanceAfter (node rp rpr l r rh) price
      = rotate_left (node rp rpr l r (1 + max (get_height l) (get_height r))) := by
  unfold balanceAfter
  dsimp only
  split_ifs with c1 c2 c3 c4
  · exact absurd c1.1 (by omega)
  · rfl
  all_goals exact absurd ⟨h1, h2⟩ c2

theorem balanceAfter_lr (rp : Int) (rpr : Product) (l r : AVL) (rh : Nat) (price : Int)
    (h1 : 1 < (get_height l : Int) - get_height r)
    (h2 : lt_root_key price l = false)
    (h3 : gt_root_key price l = true) :
    balanceAfter (node rp rpr l r rh) price
      = rotate_right (node rp rpr (rotate_left l) r
          (1 + max (get_height l) (get_height r))) := by
  unfold balanceAfter
  dsimp only
  split_ifs with c1 c2 c3 c4
  · rw [h2] at c1; exact absurd c1.2 (by simp)
  · exact absurd c2.1 (by omega)
  · rfl
  all_goals exact absurd ⟨h1, h3⟩ c3

theorem balanceAfter_rl (rp : Int) (rpr : Product) (l r : AVL) (rh : Nat) (price : Int)
    (h1 : (get_height l : Int) - get_height r < -1)
    (h2 : gt_root_key price r = false)
    (h3 : lt_root_key price r = true) :
    balanceAfter (node rp rpr l r rh) price
      = rotate_left (node rp rpr l (rotate_right r)
          (1 + max (get_height l) (get_height r))) := by
  unfold balanceAfter
  dsimp only
  split_ifs with c1 c2 c3 c4
  · exact absurd c1.1 (by omega)
  · rw [h2] at c2; exact absurd c2.2 (by simp)
  · exact absurd c3.1 (by omega)
  · rfl
  · exact absurd ⟨h1, h3⟩ c4

end AVL

namespace AVL

theorem rotate_right_node (zp : Int) (zq : Product) (yp : Int) (yq : Product)
    (yl t3 zr : AVL) (yh zh : Nat) :
    rotate_right (node zp zq (node yp yq yl t3 yh) zr zh)
      = node yp yq yl (node zp zq t3 zr (1 + max (get_height t3) (get_height zr)))
          (1 + max (get_height yl) (1 + max (get_height t3) (get_height zr))) := rfl

theorem rotate_left_node (zp : Int) (zq : Product) (zl : AVL) (yp : Int) (yq : Product)
    (t2 yr : AVL) (yh zh : Nat) :
    rotate_left (node zp zq zl (node yp yq t2 yr yh) zh)
      = node yp yq (node zp zq zl t2 (1 + max (get_height zl) (get_height t2))) yr
          (1 + max (1 + max (get_height zl) (get_height t2)) (get_height yr)) := rfl

end AVL

namespace AVL

theorem insert_node (rp : Int) (rpr : Product) (l r : AVL) (rh : Nat)
    (p : Int) (pr : Product) :
    insert (node rp rpr l r rh) p pr
      = if p < rp then balanceAfter (node rp rpr (insert l p pr) r rh) p
        else if rp < p then balanceAfter (node rp rpr l (insert r p pr) rh) p
        else node rp rpr l r rh := rfl

/-- Main inductive fact behind the AVL invariants: inserting into a tree with
correct stored heights and balanced nodes yields such a tree again; the
height grows by at most one; and when it does grow (to at least 2), the new
root leans exactly one level toward the side the new price went, with the
inserted price strictly on that side of the root key.  The last clause is
what justifies the source's rotation-case dispatch on `price` versus the
child's key. -/
theorem insert_main (t : AVL) (p : Int) (pr : Product)
    (hH : HeightsOK t) (hB : BalancedOK t) :
    (HeightsOK (insert t p pr) ∧ BalancedOK (insert t p pr))
    ∧ (get_height (insert t p pr) = get_height t
        ∨ get_height (insert t p pr) = get_height t + 1)
    ∧ (get_height (insert t p pr) = get_height t + 1 → 2 ≤ get_height (insert t p pr) →
        ((∃ k q a b h, insert t p pr = node k q a b h ∧ p < k ∧
            (get_height a : Int) - get_height b = 1)
         ∨ (∃ k q a b h, insert t p pr = node k q a b h ∧ k < p ∧
            (get_height a : Int) - get_height b = -1))) := by
  induction t with
  | nil =>
    refine ⟨⟨?_, ?_⟩, ?_, ?_⟩ <;>
      simp [insert, HeightsOK, BalancedOK, get_height]
  | node rp rpr l r rh ihl ihr =>
    obtain ⟨hrh, hHl, hHr⟩ := hH
    obtain ⟨hbal, hBl, hBr⟩ := hB
    rw [abs_le] at hbal
    rcases lt_trichotomy p rp with hc | hc | hc
    · -- insertion descends into the left child
      obtain ⟨⟨hHl1, hBl1⟩, hgrow, hG⟩ := ihl hHl hBl
      clear ihl ihr
      have hins : insert (node rp rpr l r rh) p pr
          = balanceAfter (node rp rpr (insert l p pr) r rh) p := by
        rw [insert_node, if_pos hc]
      rw [hins]
      rcases hgrow with heq | heq
      · -- left height unchanged: identity rebalance
        clear hG
        rw [balanceAfter_id rp rpr _ r rh p (by omega) (by omega)]
        refine ⟨⟨⟨rfl, hHl1, hHr⟩, ⟨abs_le.mpr (by omega), hBl1, hBr⟩⟩, ?_, ?_⟩
        · simp only [get_height_node]; omega
        · simp only [get_height_node]; intro hg h2; exfalso; omega
      · -- left height grew by one
        by_cases hb2 : (get_height (insert l p pr) : Int) - get_height r ≤ 1
        · -- still balanced at this node: identity rebalance
          clear hG
          rw [balanceAfter_id rp rpr _ r rh p (by omega) (by omega)]
          refine ⟨⟨⟨rfl, hHl1, hHr⟩, ⟨abs_le.mpr (by omega), hBl1, hBr⟩⟩, ?_, ?_⟩
          · simp only [get_height_node]; omega
          · simp only [get_height_node]
            intro hg h2
            left
            exact ⟨rp, rpr, insert l p pr, r, 1 + max (get_height (insert l p pr)) (get_height r), rfl, hc, by omega⟩
        · -- balance factor 2 at this node: a rotation fires
          have hb3 : (get_height (insert l p pr) : Int) - get_height r = 2 := by
            clear hG; omega
          have hG2 := hG (by clear hG; omega) (by clear hG; omega)
          clear hG
          rcases hG2 with
            ⟨lk, lq, a, b, lh, hleq, hpk, hab⟩ | ⟨lk, lq, a, b, lh, hleq, hpk, hab⟩
          · -- new left root leans left and p < lk: left-left single rotation
            rw [hleq] at hHl1 hBl1 heq hb3
            simp only [get_height_node] at heq hb3
            obtain ⟨hlh, hHa, hHb⟩ := hHl1
            obtain ⟨hbl2, hBa, hBb⟩ := hBl1
            rw [abs_le] at hbl2
            rw [hleq, balanceAfter_ll rp rpr _ r rh p
                (by simp only [get_height_node]; omega) (by simp [lt_root_key, hpk]),
              rotate_right_node]
            refine ⟨⟨⟨rfl, hHa, rfl, hHb, hHr⟩,
                ⟨abs_le.mpr ?_, hBa, abs_le.mpr ?_, hBb, hBr⟩⟩, ?_, ?_⟩
            · simp only [get_height_node]; omega
            · omega
            · simp only [get_height_node]; omega
            · simp only [get_height_node]; intro hg h2; exfalso; omega
          · -- new left root leans right and lk < p: left-right double rotation
            rw [hleq] at hHl1 hBl1 heq hb3
            simp only [get_height_node] at heq hb3
            obtain ⟨hlh, hHa, hHb⟩ := hHl1
            obtain ⟨hbl2, hBa, hBb⟩ := hBl1
            rw [abs_le] at hbl2
            cases b with
            | nil => exfalso; simp only [get_height] at hab; omega
            | node bk bq b1 b2 bh =>
              obtain ⟨hbh, hHb1, hHb2⟩ := hHb
              obtain ⟨hbb, hBb1, hBb2⟩ := hBb
              rw [abs_le] at hbb
              simp only [get_height_node] at hab hlh hbl2
              rw [hleq, balanceAfter_lr rp rpr _ r rh p
                  (by simp only [get_height_node]; omega)
                  (by simp only [lt_root_key, decide_eq_false_iff_not]; omega)
                  (by simp only [gt_root_key, decide_eq_true_eq]; omega),
                rotate_left_node, rotate_right_node]
              refine ⟨⟨⟨rfl, ⟨rfl, hHa, hHb1⟩, rfl, hHb2, hHr⟩,
                  ⟨abs_le.mpr ?_, ⟨abs_le.mpr ?_, hBa, hBb1⟩,
                    abs_le.mpr ?_, hBb2, hBr⟩⟩, ?_, ?_⟩
              · simp only [get_height_node]; omega
              · omega
              · omega
              · simp only [get_height_node]; omega
              · simp only [get_height_node]; intro hg h2; exfalso; omega
    · -- equal price: tree returned unchanged
      clear ihl ihr
      have hins : insert (node rp rpr l r rh) p pr = node rp rpr l r rh := by
        rw [insert_node, if_neg (by omega), if_neg (by omega)]
      rw [hins]
      exact ⟨⟨⟨hrh, hHl, hHr⟩, ⟨abs_le.mpr (by omega), hBl, hBr⟩⟩, Or.inl rfl,
        fun hg _ => absurd hg (by omega)⟩
    · -- insertion descends into the right child
      obtain ⟨⟨hHr1, hBr1⟩, hgrow, hG⟩ := ihr hHr hBr
      clear ihl ihr
      have hins : insert (node rp rpr l r rh) p pr
          = balanceAfter (node rp rpr l (insert r p pr) rh) p := by
        rw [insert_node, if_neg (by omega), if_pos hc]
      rw [hins]
      rcases hgrow with heq | heq
      · -- right height unchanged: identity rebalance
        clear hG
        rw [balanceAfter_id rp rpr l _ rh p (by omega) (by omega)]
        refine ⟨⟨⟨rfl, hHl, hHr1⟩, ⟨abs_le.mpr (by omega), hBl, hBr1⟩⟩, ?_, ?_⟩
        · simp only [get_height_node]; omega
        · simp only [get_height_node]; intro hg h2; exfalso; omega
      · -- right height grew by one
        by_cases hb2 : -1 ≤ (get_height l : Int) - get_height (insert r p pr)
        · -- still balanced at this node: identity rebalance
          clear hG
          rw [balanceAfter_id rp rpr l _ rh p (by omega) (by omega)]
          refine ⟨⟨⟨rfl, hHl, hHr1⟩, ⟨abs_le.mpr (by omega), hBl, hBr1⟩⟩, ?_, ?_⟩
          · simp only [get_height_node]; omega
          · simp only [get_height_node]
            intro hg h2
            right
            exact ⟨rp, rpr, l, insert r p pr, 1 + max (get_height l) (get_height (insert r p pr)), rfl, hc, by omega⟩
        · -- balance factor -2 at this node: a rotation fires
          have hb3 : (get_height l : Int) - get_height (insert r p pr) = -2 := by
            clear hG; omega
          have hG2 := hG (by clear hG; omega) (by clear hG; omega)
          clear hG
          rcases hG2 with
            ⟨k, q, a, b, h, hreq, hpk, hab⟩ | ⟨k, q, a, b, h, hreq, hpk, hab⟩
          · -- new right root leans left and p < k: right-left double rotation
            rw [hreq] at hHr1 hBr1 heq hb3
            simp only [get_height_node] at heq hb3
            obtain ⟨hh, hHa, hHb⟩ := hHr1
            obtain ⟨hbr2, hBa, hBb⟩ := hBr1
            rw [abs_le] at hbr2
            cases a with
            | nil => exfalso; simp only [get_height] at hab; omega
            | node ak aq a1 a2 ah =>
              obtain ⟨hah, hHa1, hHa2⟩ := hHa
              obtain ⟨hba, hBa1, hBa2⟩ := hBa
              rw [abs_le] at hba
              simp only [get_height_node] at hab hh hbr2
              rw [hreq, balanceAfter_rl rp rpr l _ rh p
                  (by simp only [get_height_node]; omega)
                  (by simp only [gt_root_key, decide_eq_false_iff_not]; omega)
                  (by simp only [lt_root_key, decide_eq_true_eq]; omega),
                rotate_right_node, rotate_left_node]
              refine ⟨⟨⟨rfl, ⟨rfl, hHl, hHa1⟩, rfl, hHa2, hHb⟩,
                  ⟨abs_le.mpr ?_, ⟨abs_le.mpr ?_, hBl, hBa1⟩,
                    abs_le.mpr ?_, hBa2, hBb⟩⟩, ?_, ?_⟩
              · simp only [get_height_node]; omega
              · omega
              · omega
              · simp only [get_height_node]; omega
              · simp only [get_height_node]; intro hg h2; exfalso; omega
          · -- new right root leans right and k < p: right-right single rotation
            rw [hreq] at hHr1 hBr1 heq hb3
            simp only [get_height_node] at heq hb3
            obtain ⟨hh, hHa, hHb⟩ := hHr1
            obtain ⟨hbr2, hBa, hBb⟩ := hBr1
            rw [abs_le] at hbr2
            rw [hreq, balanceAfter_rr rp rpr l _ rh p
                (by simp only [get_height_node]; omega)
                (by simp [gt_root_key, hpk]),
              rotate_left_node]
            refine ⟨⟨⟨rfl, ⟨rfl, hHl, hHa⟩, hHb⟩,
                ⟨abs_le.mpr ?_, ⟨abs_le.mpr ?_, hBl, hBa⟩, hBb⟩⟩, ?_, ?_⟩
            · simp only [get_height_node]; omega
            · omega
            · simp only [get_height_node]; omega
            · simp only [get_height_node]; intro hg h2; exfalso; omega

end AVL

namespace AVL

theorem inv_foldl (l : List (Int × Product)) (t : AVL)
    (hH : HeightsOK t) (hB : BalancedOK t) :
    HeightsOK (l.foldl (fun t e => insert t e.1 e.2) t)
      ∧ BalancedOK (l.foldl (fun t e => insert t e.1 e.2) t) := by
  induction l generalizing t with
  | nil => exact ⟨hH, hB⟩
  | cons e rest ih =>
    have h1 := (insert_main t e.1 e.2 hH hB).1
    exact ih _ h1.1 h1.2

end AVL

/-- C6: for every tree obtained from the empty tree by any sequence of
PriceIndex insert operations, every node's stored height field equals
`1 + max (height left) (height right)` (empty subtree of height 0), and
every node satisfies the AVL balance invariant
`|height(left) - height(right)| ≤ 1`. -/
theorem C6_avl_invariants (l : List (Int × Product)) :
    AVL.HeightsOK (AVL.buildTree l) ∧ AVL.BalancedOK (AVL.buildTree l) :=
  AVL.inv_foldl l AVL.nil trivial trivial

/-!
Model of the CPython `heapq` functions used by
`double_ended_priority_queue.py` and `heap_handler.py`: `heappush`,
`heapify`, and the internal `_siftdown` / `_siftup`, over a `List`
representing the Python list and a boolean `<` comparison.  The functions
follow `heapq.py`'s reference implementation line by line.
-/

section Heapq

variable {α : Type} (lt : α → α → Bool) (dflt : α)

/-- Indexing `heap[i]`; the default is never reached at the algorithms' call
sites (all indices are in range). -/
def lget (l : List α) (i : Nat) : α := l.getD i dflt

/-- CPython `heapq._siftdown(heap, startpos, pos)`, with the moved value
`newitem` (read by Python from `heap[pos]` before the loop) as an explicit
argument: walk from `pos` up toward `startpos`; while `newitem < parent`,
move the parent down into the current position and continue from the parent
position; finally store `newitem` at the reached position. -/
def siftdown (heap : List α) (startpos pos : Nat) (newitem : α) : List α :=
  if startpos < pos then
    let parentpos := (pos - 1) / 2
    let parent := lget dflt heap parentpos
    if lt newitem parent then
      siftdown (heap.set pos parent) startpos parentpos newitem
    else heap.set pos newitem
  else heap.set pos newitem
termination_by pos
decreasing_by simp_wf; omega

/-- CPython `heapq.heappush`: append, then sift up from the last index. -/
def heappush (heap : List α) (item : α) : List α :=
  siftdown lt dflt (heap ++ [item]) 0 heap.length item

/-- The loop of CPython `heapq._siftup`: bubble the hole at `pos` down to a
leaf, moving the smaller child up at each step (`childpos` becomes the right
child when `rightpos < endpos and not heap[childpos] < heap[rightpos]`);
returns the array and the final hole position. -/
def siftupLoop (heap : List α) (pos : Nat) : List α × Nat :=
  if 2 * pos + 1 < heap.length then
    let childpos :=
      if 2 * pos + 2 < heap.length ∧
          lt (lget dflt heap (2 * pos + 1)) (lget dflt heap (2 * pos + 2)) = false
      then 2 * pos + 2 else 2 * pos + 1
    siftupLoop (heap.set pos (lget dflt heap childpos)) childpos
  else (heap, pos)
termination_by heap.length - pos
decreasing_by all_goals (simp_wf; split <;> omega)

/-- CPython `heapq._siftup(heap, pos)`: save `heap[pos]`, move the hole down
to a leaf, write the saved item there, then `_siftdown(heap, pos, leaf)`. -/
def siftup (heap : List α) (pos : Nat) : List α :=
  let newitem := lget dflt heap pos
  let wp := siftupLoop lt dflt heap pos
  siftdown lt dflt (wp.1.set wp.2 newitem) pos wp.2 newitem

/-- The loop `for i in reversed(range(n // 2)): _siftup(x, i)` of CPython
`heapq.heapify`; `heapifyAux heap k` still has to process `k-1, …, 0`. -/
def heapifyAux : List α → Nat → List α
  | heap, 0 => heap
  | heap, (k + 1) => heapifyAux (siftup lt dflt heap k) k

/-- CPython `heapq.heapify`. -/
def heapify (heap : List α) : List α := heapifyAux lt dflt heap (heap.length / 2)

/-- Binary-heap shape invariant on the array, relative to the comparison:
no child compares strictly less than its parent, for parents from `k` up. -/
def EdgesFrom (heap : List α) (k : Nat) : Prop :=
  ∀ p c : Nat, k ≤ p → (c = 2 * p + 1 ∨ c = 2 * p + 2) → c < heap.length →
    lt (lget dflt heap c) (lget dflt heap p) = false

/-- The heap invariant maintained by `heapq`. -/
def HeapInv (heap : List α) : Prop := EdgesFrom lt dflt heap 0

/-- Index `p` lies in the subtree rooted at index `s` of the implicit
binary tree. -/
def Desc (s p : Nat) : Prop :=
  if p ≤ s then p = s else Desc s ((p - 1) / 2)
termination_by p
decreasing_by simp_wf; omega

end Heapq

section Heapq

variable {α : Type} (lt : α → α → Bool) (dflt : α)

theorem lget_set_self (l : List α) (i : Nat) (v : α) (h : i < l.length) :
    lget dflt (l.set i v) i = v := by
  simp [lget, List.getD_eq_getElem?_getD, List.getElem?_set_self h]

theorem lget_set_ne (l : List α) (i j : Nat) (v : α) (h : i ≠ j) :
    lget dflt (l.set i v) j = lget dflt l j := by
  simp [lget, List.getD_eq_getElem?_getD, List.getElem?_set_ne h]

theorem lget_eq_getElem (l : List α) (i : Nat) (h : i < l.length) :
    lget dflt l i = l[i] := List.getD_eq_getElem l dflt h

theorem lget_append_left (l l2 : List α) (i : Nat) (h : i < l.length) :
    lget dflt (l ++ l2) i = lget dflt l i := List.getD_append l l2 dflt i h

theorem lget_mem (l : List α) (i : Nat) (h : i < l.length) : lget dflt l i ∈ l := by
  rw [lget_eq_getElem dflt l i h]
  exact List.getElem_mem h

theorem set_lget_self : ∀ (l : List α) (i : Nat), i < l.length → l.set i (lget dflt l i) = l := by
  intro l
  induction l with
  | nil => intro i h; simp at h
  | cons a t ih =>
    intro i h
    cases i with
    | zero => rfl
    | succ i =>
      simp only [lget, List.getD_cons_succ, List.set_cons_succ]
      rw [show t.getD i dflt = lget dflt t i from rfl, ih i (by simpa using h)]

theorem set_set_perm [DecidableEq α] (l : List α) (i j : Nat) (a : α)
    (hij : i ≠ j) (hi : i < l.length) (hj : j < l.length) :
    ((l.set i (lget dflt l j)).set j a).Perm (l.set i a) := by
  rw [List.perm_iff_count]
  intro x
  have h1 : j < (l.set i (lget dflt l j)).length := by simpa using hj
  rw [List.count_set _ _ _ _ h1, List.count_set _ _ _ _ hi, List.count_set _ _ _ _ hi]
  have h2 : (l.set i (lget dflt l j))[j] = l[j] := by
    rw [List.getElem_set_ne hij]
  rw [h2, ← lget_eq_getElem dflt l j hj]
  set A := (if (l[i] == x) = true then 1 else 0) with hA
  set B := (if (lget dflt l j == x) = true then 1 else 0) with hB
  set D := (if (a == x) = true then 1 else 0) with hD
  omega

theorem siftdown_perm [DecidableEq α] :
    ∀ (pos : Nat) (heap : List α) (startpos : Nat) (newitem : α), pos < heap.length →
    (siftdown lt dflt heap startpos pos newitem).Perm (heap.set pos newitem) := by
  intro pos
  induction pos using Nat.strong_induction_on with
  | _ pos ih =>
    intro heap startpos newitem hp
    unfold siftdown
    dsimp only
    split_ifs with h1 h2
    · have hpp : (pos - 1) / 2 < pos := by omega
      have hlen : (pos - 1) / 2 < (heap.set pos (lget dflt heap ((pos - 1) / 2))).length := by
        simp only [List.length_set]; omega
      exact (ih _ hpp _ _ _ hlen).trans
        (set_set_perm dflt heap pos ((pos - 1) / 2) newitem (by omega) hp (by omega))
    · exact List.Perm.refl _
    · exact List.Perm.refl _

theorem siftdown_length [DecidableEq α] (pos : Nat) (heap : List α) (startpos : Nat)
    (newitem : α) (hp : pos < heap.length) :
    (siftdown lt dflt heap startpos pos newitem).length = heap.length := by
  have := (siftdown_perm lt dflt pos heap startpos newitem hp).length_eq
  simpa using this

theorem heappush_perm [DecidableEq α] (heap : List α) (item : α) :
    (heappush lt dflt heap item).Perm (item :: heap) := by
  unfold heappush
  have h1 : heap.length < (heap ++ [item]).length := by simp
  refine (siftdown_perm lt dflt _ _ _ _ h1).trans ?_
  have h2 : (heap ++ [item]).set heap.length item = heap ++ [item] := by
    have : lget dflt (heap ++ [item]) heap.length = item := by
      rw [lget_eq_getElem dflt _ _ h1]
      simp
    nth_rewrite 2 [← this]
    exact set_lget_self dflt _ _ h1
  rw [h2]
  have h3 : (heap ++ [item]).Perm (item :: (heap ++ [])) := List.perm_middle
  simpa using h3

theorem desc_ge : ∀ {s p : Nat}, Desc s p → s ≤ p := by
  intro s p
  induction p using Nat.strong_induction_on with
  | _ p ih =>
    intro h
    unfold Desc at h
    split_ifs at h with h1
    · omega
    · exact le_trans (ih _ (by omega) h) (by omega)

theorem desc_self (s : Nat) : Desc s s := by
  unfold Desc; simp

theorem desc_parent {s p : Nat} (h : Desc s p) (hne : p ≠ s) : Desc s ((p - 1) / 2) := by
  have hs := desc_ge h
  unfold Desc at h
  split_ifs at h with h1
  · omega
  · exact h

theorem desc_child {s p c : Nat} (h : Desc s p) (hc : c = 2 * p + 1 ∨ c = 2 * p + 2) :
    Desc s c := by
  have hs := desc_ge h
  have hp : (c - 1) / 2 = p := by omega
  unfold Desc
  split_ifs with h1
  · omega
  · rw [hp]; exact h

theorem desc_trans : ∀ {s q c : Nat}, Desc s q → Desc q c → Desc s c := by
  intro s q c
  induction c using Nat.strong_induction_on with
  | _ c ih =>
    intro h1 h2
    have hq := desc_ge h1
    have hc := desc_ge h2
    unfold Desc at h2
    split_ifs at h2 with hh
    · subst h2; exact h1
    · have h3 : Desc s ((c - 1) / 2) := ih _ (by omega) h1 h2
      have : Desc s c ↔ Desc s ((c - 1) / 2) := by
        conv_lhs => unfold Desc
        rw [if_neg (by omega)]
      exact this.mpr h3

theorem childrel_parent {p c : Nat} (hc : c = 2 * p + 1 ∨ c = 2 * p + 2) :
    p = (c - 1) / 2 := by omega

end Heapq

section HeapqOrder

variable {α : Type} (lt : α → α → Bool) (dflt : α) (key : α → Int)

theorem edgesFrom_key_iff (hkey : ∀ a b, lt a b = decide (key a < key b))
    (heap : List α) (k : Nat) :
    EdgesFrom lt dflt heap k ↔
      ∀ p c : Nat, k ≤ p → (c = 2 * p + 1 ∨ c = 2 * p + 2) → c < heap.length →
        key (lget dflt heap p) ≤ key (lget dflt heap c) := by
  unfold EdgesFrom
  constructor <;> intro h p c h1 h2 h3 <;> have h4 := h p c h1 h2 h3
  · rw [hkey, decide_eq_false_iff_not, not_lt] at h4; exact h4
  · rw [hkey, decide_eq_false_iff_not, not_lt]; exact h4

theorem heapInv_root_le (hkey : ∀ a b, lt a b = decide (key a < key b))
    (heap : List α) (hinv : EdgesFrom lt dflt heap 0) :
    ∀ j, j < heap.length → key (lget dflt heap 0) ≤ key (lget dflt heap j) := by
  intro j
  induction j using Nat.strong_induction_on with
  | _ j ih =>
    intro hj
    rcases Nat.eq_zero_or_pos j with rfl | hpos
    · exact le_refl _
    · have hput := (edgesFrom_key_iff lt dflt key hkey heap 0).mp hinv ((j - 1) / 2) j
        (by omega) (by omega) hj
      exact le_trans (ih ((j - 1) / 2) (by omega) (by omega)) hput

theorem siftdown_spec (hkey : ∀ a b, lt a b = decide (key a < key b)) :
    ∀ (pos : Nat) (heap : List α) (startpos : Nat) (newitem : α),
    pos < heap.length →
    Desc startpos pos →
    (∀ p c : Nat, startpos ≤ p → (c = 2 * p + 1 ∨ c = 2 * p + 2) → c < heap.length →
        c ≠ pos →
        key (lget dflt (heap.set pos newitem) p) ≤ key (lget dflt (heap.set pos newitem) c)) →
    (startpos < pos →
      ∀ c : Nat, (c = 2 * pos + 1 ∨ c = 2 * pos + 2) → c < heap.length →
        key (lget dflt heap ((pos - 1) / 2)) ≤ key (lget dflt heap c)) →
    ∀ p c : Nat, startpos ≤ p → (c = 2 * p + 1 ∨ c = 2 * p + 2) →
      c < (siftdown lt dflt heap startpos pos newitem).length →
      key (lget dflt (siftdown lt dflt heap startpos pos newitem) p)
        ≤ key (lget dflt (siftdown lt dflt heap startpos pos newitem) c) := by
  intro pos
  induction pos using Nat.strong_induction_on with
  | _ pos ih =>
    intro heap startpos newitem hlen hdesc hA hB
    have wpos : lget dflt (heap.set pos newitem) pos = newitem :=
      lget_set_self dflt heap pos newitem hlen
    have wM : ∀ j, j ≠ pos → lget dflt (heap.set pos newitem) j = lget dflt heap j :=
      fun j hj => lget_set_ne dflt heap pos j newitem (fun h => hj h.symm)
    unfold siftdown
    dsimp only
    split_ifs with h1 h2
    · -- newitem < parent: move the parent down and recurse from parentpos
      have hppos : (pos - 1) / 2 < pos := by omega
      have hpplen : (pos - 1) / 2 < heap.length := by omega
      have hlt : key newitem < key (lget dflt heap ((pos - 1) / 2)) := by
        rw [hkey, decide_eq_true_eq] at h2; exact h2
      have vpp : lget dflt ((heap.set pos (lget dflt heap ((pos - 1) / 2))).set
          ((pos - 1) / 2) newitem) ((pos - 1) / 2) = newitem :=
        lget_set_self dflt _ _ _ (by simp only [List.length_set]; omega)
      have vpos : lget dflt ((heap.set pos (lget dflt heap ((pos - 1) / 2))).set
          ((pos - 1) / 2) newitem) pos = lget dflt heap ((pos - 1) / 2) := by
        rw [lget_set_ne dflt _ _ _ _ (by omega)]
        exact lget_set_self dflt heap pos _ hlen
      have vM : ∀ j, j ≠ pos → j ≠ (pos - 1) / 2 →
          lget dflt ((heap.set pos (lget dflt heap ((pos - 1) / 2))).set
            ((pos - 1) / 2) newitem) j = lget dflt heap j := by
        intro j hj1 hj2
        rw [lget_set_ne dflt _ _ _ _ (fun h => hj2 h.symm),
          lget_set_ne dflt _ _ _ _ (fun h => hj1 h.symm)]
      apply ih ((pos - 1) / 2) hppos _ startpos newitem
        (by simp only [List.length_set]; omega)
        (desc_parent hdesc (by omega))
      · -- the almost-heap property for the new hole
        intro p c hp hcrel hclen hcne
        simp only [List.length_set] at hclen
        have hclen2 : c < heap.length := hclen
        by_cases hcp : c = pos
        · -- edge from the new hole down to the old one
          have hppar : p = (pos - 1) / 2 := by
            have := childrel_parent hcrel; omega
          rw [hcp, hppar, vpp, vpos]
          exact le_of_lt hlt
        · by_cases hpp : p = pos
          · -- edges out of the old hole, now holding the parent value
            rw [hpp, vpos, vM c hcp (by omega)]
            rw [hpp] at hcrel
            exact hB h1 c hcrel hclen2
          · by_cases hppp : p = (pos - 1) / 2
            · -- edges out of the new hole to the sibling of the old one
              have h5 := hA p c hp hcrel hclen2 hcp
              rw [wM p (by omega), wM c hcp] at h5
              rw [hppp] at h5
              rw [hppp, vpp, vM c hcp hcne]
              exact le_trans (le_of_lt hlt) h5
            · -- edges untouched by either write
              have h5 := hA p c hp hcrel hclen2 hcp
              rw [wM p hpp, wM c hcp] at h5
              rw [vM p hpp hppp, vM c hcp hcne]
              exact h5
      · -- parent-of-hole versus children-of-hole, for the new hole
        intro hsp c hcrel hclen
        simp only [List.length_set] at hclen
        have hgp : Desc startpos ((pos - 1) / 2) := desc_parent hdesc (by omega)
        have hgp2 : Desc startpos (((pos - 1) / 2 - 1) / 2) := desc_parent hgp (by omega)
        have hgpge : startpos ≤ ((pos - 1) / 2 - 1) / 2 := desc_ge hgp2
        have hedge1 := hA (((pos - 1) / 2 - 1) / 2) ((pos - 1) / 2) hgpge
          (by omega) (by omega) (by omega)
        rw [wM _ (by omega), wM _ (by omega)] at hedge1
        have vX : ∀ j, j ≠ pos →
            lget dflt (heap.set pos (lget dflt heap ((pos - 1) / 2))) j
              = lget dflt heap j :=
          fun j hj => lget_set_ne dflt heap pos j _ (fun h => hj h.symm)
        have vXpos : lget dflt (heap.set pos (lget dflt heap ((pos - 1) / 2))) pos
            = lget dflt heap ((pos - 1) / 2) := lget_set_self dflt heap pos _ hlen
        rw [vX _ (by omega)]
        by_cases hcp : c = pos
        · rw [hcp, vXpos]
          exact hedge1
        · rw [vX c hcp]
          have hedge2 := hA ((pos - 1) / 2) c (by omega) hcrel hclen hcp
          rw [wM _ (by omega), wM c hcp] at hedge2
          exact le_trans hedge1 hedge2
    · -- parent does not compare above newitem: place newitem here and stop
      simp only [hkey, decide_eq_true_eq] at h2
      have hge : key (lget dflt heap ((pos - 1) / 2)) ≤ key newitem := not_lt.mp h2
      intro p c hp hcrel hclen
      simp only [List.length_set] at hclen
      by_cases hcp : c = pos
      · have hppar : p = (pos - 1) / 2 := by
          have := childrel_parent hcrel; omega
        rw [hcp, hppar, wM _ (by omega), wpos]
        exact hge
      · exact hA p c hp hcrel hclen hcp
    · -- pos = startpos: stop
      have hpos : pos = startpos := by
        have := desc_ge hdesc; omega
      intro p c hp hcrel hclen
      simp only [List.length_set] at hclen
      by_cases hcp : c = pos
      · exfalso
        have hppar : p = (c - 1) / 2 := childrel_parent hcrel
        omega
      · exact hA p c hp hcrel hclen hcp

end HeapqOrder

section HeapqSiftup

variable {α : Type} (lt : α → α → Bool) (dflt : α) (key : α → Int)

theorem desc_zero : ∀ p : Nat, Desc 0 p := by
  intro p
  induction p using Nat.strong_induction_on with
  | _ p ih =>
    unfold Desc
    split_ifs with h1
    · omega
    · exact ih _ (by omega)

/-- Keyed form of the heap-shape property for parents from `k` up. -/
def KEdges (heap : List α) (k : Nat) : Prop :=
  ∀ p c : Nat, k ≤ p → (c = 2 * p + 1 ∨ c = 2 * p + 2) → c < heap.length →
    key (lget dflt heap p) ≤ key (lget dflt heap c)

theorem siftupLoop_basic [DecidableEq α] :
    ∀ (n : Nat) (heap : List α) (q : Nat), heap.length - q ≤ n → q < heap.length →
    (siftupLoop lt dflt heap q).1.length = heap.length
    ∧ (siftupLoop lt dflt heap q).2 < heap.length
    ∧ ¬ (2 * (siftupLoop lt dflt heap q).2 + 1 < heap.length)
    ∧ Desc q (siftupLoop lt dflt heap q).2
    ∧ ∀ x : α, ((siftupLoop lt dflt heap q).1.set (siftupLoop lt dflt heap q).2 x).Perm
        (heap.set q x) := by
  intro n
  induction n with
  | zero => intro heap q hn hq; omega
  | succ n ih =>
    intro heap q hn hq
    unfold siftupLoop
    dsimp only
    split_ifs with h1 h2
    · have hq2 : 2 * q + 2 < (heap.set q (lget dflt heap (2 * q + 2))).length := by
        simp only [List.length_set]; omega
      have hrec := ih (heap.set q (lget dflt heap (2 * q + 2))) (2 * q + 2)
        (by simp only [List.length_set]; omega) hq2
      simp only [List.length_set] at hrec
      obtain ⟨e1, e2, e3, e4, e5⟩ := hrec
      refine ⟨e1, e2, e3, desc_trans (desc_child (desc_self q) (Or.inr rfl)) e4, ?_⟩
      intro x
      refine (e5 x).trans ?_
      exact set_set_perm dflt heap q (2 * q + 2) x (by omega) hq h2.1
    · have hq1 : 2 * q + 1 < (heap.set q (lget dflt heap (2 * q + 1))).length := by
        simp only [List.length_set]; omega
      have hrec := ih (heap.set q (lget dflt heap (2 * q + 1))) (2 * q + 1)
        (by simp only [List.length_set]; omega) hq1
      simp only [List.length_set] at hrec
      obtain ⟨e1, e2, e3, e4, e5⟩ := hrec
      refine ⟨e1, e2, e3, desc_trans (desc_child (desc_self q) (Or.inl rfl)) e4, ?_⟩
      intro x
      refine (e5 x).trans ?_
      exact set_set_perm dflt heap q (2 * q + 1) x (by omega) hq h1
    · exact ⟨rfl, hq, h1, desc_self q, fun x => List.Perm.refl _⟩

/-- One step of the `_siftup` hole walk preserves the loop invariants, for a
chosen child `cstar` that compares no greater than either child. -/
theorem siftupLoop_edges_step (heap : List α) (pos q cstar : Nat)
    (hq : q < heap.length) (hdesc : Desc pos q)
    (hcs1 : cstar = 2 * q + 1 ∨ cstar = 2 * q + 2) (hcslen : cstar < heap.length)
    (hmin : ∀ c : Nat, (c = 2 * q + 1 ∨ c = 2 * q + 2) → c < heap.length →
        key (lget dflt heap cstar) ≤ key (lget dflt heap c))
    (hL1 : ∀ p c : Nat, pos ≤ p → (c = 2 * p + 1 ∨ c = 2 * p + 2) → c < heap.length →
        p ≠ q → c ≠ q → key (lget dflt heap p) ≤ key (lget dflt heap c))
    (hL24 : q ≠ pos →
      (∀ c : Nat, (c = 2 * q + 1 ∨ c = 2 * q + 2) → c < heap.length →
          key (lget dflt heap q) ≤ key (lget dflt heap c))
      ∧ key (lget dflt heap ((q - 1) / 2)) = key (lget dflt heap q)) :
    (∀ p c : Nat, pos ≤ p → (c = 2 * p + 1 ∨ c = 2 * p + 2) →
        c < (heap.set q (lget dflt heap cstar)).length → p ≠ cstar → c ≠ cstar →
        key (lget dflt (heap.set q (lget dflt heap cstar)) p)
          ≤ key (lget dflt (heap.set q (lget dflt heap cstar)) c))
    ∧ (cstar ≠ pos →
      (∀ c : Nat, (c = 2 * cstar + 1 ∨ c = 2 * cstar + 2) →
          c < (heap.set q (lget dflt heap cstar)).length →
          key (lget dflt (heap.set q (lget dflt heap cstar)) cstar)
            ≤ key (lget dflt (heap.set q (lget dflt heap cstar)) c))
      ∧ key (lget dflt (heap.set q (lget dflt heap cstar)) ((cstar - 1) / 2))
          = key (lget dflt (heap.set q (lget dflt heap cstar)) cstar)) := by
  have hcsgt : q < cstar := by omega
  have hvq : lget dflt (heap.set q (lget dflt heap cstar)) q
      = lget dflt heap cstar := lget_set_self dflt heap q _ hq
  have hvne : ∀ j, j ≠ q →
      lget dflt (heap.set q (lget dflt heap cstar)) j = lget dflt heap j :=
    fun j hj => lget_set_ne dflt heap q j _ (fun h => hj h.symm)
  constructor
  · intro p c hp hcrel hclen hpne hcne
    simp only [List.length_set] at hclen
    by_cases hcq : c = q
    · -- edge into the old hole, which now holds the moved child value
      have hq1 : 1 ≤ q := by omega
      have hppar : p = (q - 1) / 2 := by
        have := childrel_parent hcrel; omega
      by_cases hqpos : q = pos
      · exfalso
        have := desc_ge hdesc
        omega
      · obtain ⟨hL2, hL4⟩ := hL24 hqpos
        rw [hcq, hvq, hppar, hvne _ (by omega), hL4]
        exact hL2 cstar hcs1 hcslen
    · by_cases hpq : p = q
      · -- edges out of the old hole: the moved value is the smaller child
        rw [hpq, hvq, hvne c hcq]
        rw [hpq] at hcrel
        exact hmin c hcrel hclen
      · rw [hvne p hpq, hvne c hcq]
        exact hL1 p c hp hcrel hclen hpq hcq
  · intro hcspos
    constructor
    · intro c hcrel hclen
      simp only [List.length_set] at hclen
      have hcgt : cstar < c := by omega
      rw [hvne cstar (by omega), hvne c (by omega)]
      exact hL1 cstar c (by have := desc_ge hdesc; omega) hcrel hclen (by omega) (by omega)
    · have hpar : (cstar - 1) / 2 = q := by
        have := childrel_parent hcs1; omega
      rw [hpar, hvq, hvne cstar (by omega)]

theorem siftupLoop_edges (hkey : ∀ a b, lt a b = decide (key a < key b)) :
    ∀ (n : Nat) (heap : List α) (pos q : Nat), heap.length - q ≤ n →
    q < heap.length → Desc pos q →
    (∀ p c : Nat, pos ≤ p → (c = 2 * p + 1 ∨ c = 2 * p + 2) → c < heap.length →
        p ≠ q → c ≠ q → key (lget dflt heap p) ≤ key (lget dflt heap c)) →
    (q ≠ pos →
      (∀ c : Nat, (c = 2 * q + 1 ∨ c = 2 * q + 2) → c < heap.length →
          key (lget dflt heap q) ≤ key (lget dflt heap c))
      ∧ key (lget dflt heap ((q - 1) / 2)) = key (lget dflt heap q)) →
    ∀ p c : Nat, pos ≤ p → (c = 2 * p + 1 ∨ c = 2 * p + 2) →
      c < (siftupLoop lt dflt heap q).1.length →
      p ≠ (siftupLoop lt dflt heap q).2 → c ≠ (siftupLoop lt dflt heap q).2 →
      key (lget dflt (siftupLoop lt dflt heap q).1 p)
        ≤ key (lget dflt (siftupLoop lt dflt heap q).1 c) := by
  intro n
  induction n with
  | zero => intro heap pos q hn hq; omega
  | succ n ih =>
    intro heap pos q hn hq hdesc hL1 hL24
    unfold siftupLoop
    dsimp only
    split_ifs with h1 h2
    · -- the right child moves up
      have hmin : ∀ c : Nat, (c = 2 * q + 1 ∨ c = 2 * q + 2) → c < heap.length →
          key (lget dflt heap (2 * q + 2)) ≤ key (lget dflt heap c) := by
        intro c hc hclen
        rcases hc with rfl | rfl
        · have := h2.2
          rw [hkey, decide_eq_false_iff_not, not_lt] at this
          exact this
        · exact le_refl _
      have hstep := siftupLoop_edges_step dflt key heap pos q (2 * q + 2) hq hdesc
        (Or.inr rfl) h2.1 hmin hL1 hL24
      exact ih _ pos (2 * q + 2) (by simp only [List.length_set]; omega)
        (by simp only [List.length_set]; omega)
        (desc_trans hdesc (desc_child (desc_self q) (Or.inr rfl)))
        hstep.1 hstep.2
    · -- the left child moves up
      have hmin : ∀ c : Nat, (c = 2 * q + 1 ∨ c = 2 * q + 2) → c < heap.length →
          key (lget dflt heap (2 * q + 1)) ≤ key (lget dflt heap c) := by
        intro c hc hclen
        rcases hc with rfl | rfl
        · exact le_refl _
        · push_neg at h2
          have h3 := h2 hclen
          have h4 : lt (lget dflt heap (2 * q + 1)) (lget dflt heap (2 * q + 2)) = true := by
            rcases Bool.eq_false_or_eq_true
              (lt (lget dflt heap (2 * q + 1)) (lget dflt heap (2 * q + 2))) with hb | hb
            · exact hb
            · exact absurd hb h3
          rw [hkey, decide_eq_true_eq] at h4
          exact le_of_lt h4
      have hstep := siftupLoop_edges_step dflt key heap pos q (2 * q + 1) hq hdesc
        (Or.inl rfl) h1 hmin hL1 hL24
      exact ih _ pos (2 * q + 1) (by simp only [List.length_set]; omega)
        (by simp only [List.length_set]; omega)
        (desc_trans hdesc (desc_child (desc_self q) (Or.inl rfl)))
        hstep.1 hstep.2
    · -- the hole reached a leaf: the loop stops
      intro p c hp hcrel hclen hpne hcne
      exact hL1 p c hp hcrel hclen hpne hcne

end HeapqSiftup

section HeapqAssemble

variable {α : Type} (lt : α → α → Bool) (dflt : α) (key : α → Int)

theorem siftup_perm [DecidableEq α] (heap : List α) (pos : Nat) (hq : pos < heap.length) :
    (siftup lt dflt heap pos).Perm heap := by
  unfold siftup
  dsimp only
  obtain ⟨e1, e2, e3, e4, e5⟩ :=
    siftupLoop_basic lt dflt (heap.length - pos) heap pos le_rfl hq
  have hlen2 : (siftupLoop lt dflt heap pos).2 <
      ((siftupLoop lt dflt heap pos).1.set (siftupLoop lt dflt heap pos).2
        (lget dflt heap pos)).length := by
    simp only [List.length_set]; omega
  refine (siftdown_perm lt dflt _ _ _ _ hlen2).trans ?_
  rw [List.set_set]
  have h6 := e5 (lget dflt heap pos)
  rwa [set_lget_self dflt heap pos hq] at h6

theorem siftup_length [DecidableEq α] (heap : List α) (pos : Nat) (hq : pos < heap.length) :
    (siftup lt dflt heap pos).length = heap.length :=
  (siftup_perm lt dflt heap pos hq).length_eq

theorem siftup_spec [DecidableEq α] (hkey : ∀ a b, lt a b = decide (key a < key b))
    (heap : List α) (pos : Nat) (hq : pos < heap.length)
    (hpre : ∀ p c : Nat, pos + 1 ≤ p → (c = 2 * p + 1 ∨ c = 2 * p + 2) →
        c < heap.length → key (lget dflt heap p) ≤ key (lget dflt heap c)) :
    ∀ p c : Nat, pos ≤ p → (c = 2 * p + 1 ∨ c = 2 * p + 2) →
      c < (siftup lt dflt heap pos).length →
      key (lget dflt (siftup lt dflt heap pos) p)
        ≤ key (lget dflt (siftup lt dflt heap pos) c) := by
  unfold siftup
  dsimp only
  obtain ⟨e1, e2, e3, e4, e5⟩ :=
    siftupLoop_basic lt dflt (heap.length - pos) heap pos le_rfl hq
  have hL := siftupLoop_edges lt dflt key hkey (heap.length - pos) heap pos pos le_rfl hq
    (desc_self pos)
    (fun p c hp hcrel hclen hpne _ => hpre p c (by omega) hcrel hclen)
    (fun h => absurd rfl h)
  apply siftdown_spec lt dflt key hkey (siftupLoop lt dflt heap pos).2 _ pos
    (lget dflt heap pos) (by simp only [List.length_set]; omega) e4
  · -- almost-heap property at the leaf hole
    intro p c hp hcrel hclen hcne
    rw [List.set_set]
    simp only [List.length_set] at hclen ⊢
    by_cases hpq : p = (siftupLoop lt dflt heap pos).2
    · exfalso
      omega
    · have h7 := hL p c hp hcrel (by omega) hpq hcne
      rw [lget_set_ne dflt _ _ _ _ (fun h => hpq h.symm),
        lget_set_ne dflt _ _ _ _ (fun h => hcne h.symm)]
      exact h7
  · -- the leaf hole has no children in range
    intro hlt2 c hcrel hclen
    exfalso
    simp only [List.length_set] at hclen
    omega

theorem heapifyAux_perm [DecidableEq α] :
    ∀ (k : Nat) (heap : List α), k ≤ heap.length →
    (heapifyAux lt dflt heap k).Perm heap := by
  intro k
  induction k with
  | zero => intro heap _; exact List.Perm.refl _
  | succ k ih =>
    intro heap h
    show (heapifyAux lt dflt (siftup lt dflt heap k) k).Perm heap
    have hlt : k < heap.length := by omega
    have h1 := siftup_perm lt dflt heap k hlt
    refine List.Perm.trans (ih _ ?_) h1
    rw [h1.length_eq]; omega

theorem heapifyAux_edges [DecidableEq α] (hkey : ∀ a b, lt a b = decide (key a < key b)) :
    ∀ (k : Nat) (heap : List α), 2 * k ≤ heap.length →
    (∀ p c : Nat, k ≤ p → (c = 2 * p + 1 ∨ c = 2 * p + 2) → c < heap.length →
        key (lget dflt heap p) ≤ key (lget dflt heap c)) →
    ∀ p c : Nat, (c = 2 * p + 1 ∨ c = 2 * p + 2) →
      c < (heapifyAux lt dflt heap k).length →
      key (lget dflt (heapifyAux lt dflt heap k) p)
        ≤ key (lget dflt (heapifyAux lt dflt heap k) c) := by
  intro k
  induction k with
  | zero =>
    intro heap _ hpre p c hcrel hclen
    exact hpre p c (Nat.zero_le p) hcrel hclen
  | succ k ih =>
    intro heap h hpre
    show ∀ p c : Nat, _ → _ → key (lget dflt (heapifyAux lt dflt (siftup lt dflt heap k) k) p)
        ≤ key (lget dflt (heapifyAux lt dflt (siftup lt dflt heap k) k) c)
    have hlt : k < heap.length := by omega
    have hlen := siftup_length lt dflt heap k hlt
    apply ih (siftup lt dflt heap k) (by omega)
    intro p c hp hcrel hclen
    rw [hlen] at hclen
    exact siftup_spec lt dflt key hkey heap k hlt
      (fun p c hp2 hcrel2 hclen2 => hpre p c (by omega) hcrel2 hclen2)
      p c hp hcrel (by rw [hlen]; exact hclen)

theorem heapify_perm [DecidableEq α] (heap : List α) :
    (heapify lt dflt heap).Perm heap :=
  heapifyAux_perm lt dflt (heap.length / 2) heap (by omega)

theorem heapify_edges [DecidableEq α] (hkey : ∀ a b, lt a b = decide (key a < key b))
    (heap : List α) :
    ∀ p c : Nat, (c = 2 * p + 1 ∨ c = 2 * p + 2) → c < (heapify lt dflt heap).length →
      key (lget dflt (heapify lt dflt heap) p) ≤ key (lget dflt (heapify lt dflt heap) c) := by
  unfold heapify
  apply heapifyAux_edges lt dflt key hkey (heap.length / 2) heap (by omega)
  intro p c hp hcrel hclen
  exfalso
  omega

theorem heappush_edges [DecidableEq α] (hkey : ∀ a b, lt a b = decide (key a < key b))
    (heap : List α) (item : α)
    (hinv : ∀ p c : Nat, (c = 2 * p + 1 ∨ c = 2 * p + 2) → c < heap.length →
        key (lget dflt heap p) ≤ key (lget dflt heap c)) :
    ∀ p c : Nat, (c = 2 * p + 1 ∨ c = 2 * p + 2) →
      c < (heappush lt dflt heap item).length →
      key (lget dflt (heappush lt dflt heap item) p)
        ≤ key (lget dflt (heappush lt dflt heap item) c) := by
  unfold heappush
  have hlen : heap.length < (heap ++ [item]).length := by simp
  have hMeq : (heap ++ [item]).set heap.length item = heap ++ [item] := by
    have hv : lget dflt (heap ++ [item]) heap.length = item := by
      rw [lget_eq_getElem dflt _ _ hlen]
      simp
    nth_rewrite 2 [← hv]
    exact set_lget_self dflt _ _ hlen
  intro p c hcrel hclen
  apply siftdown_spec lt dflt key hkey heap.length (heap ++ [item]) 0 item hlen
    (desc_zero _) ?_ ?_ p c (Nat.zero_le p) hcrel hclen
  · intro p c _ hcrel2 hclen2 hcne
    rw [hMeq]
    simp only [List.length_append, List.length_cons, List.length_nil] at hclen2
    have hc : c < heap.length := by omega
    have hp : p < heap.length := by
      have := childrel_parent hcrel2; omega
    rw [lget_append_left dflt heap [item] c hc, lget_append_left dflt heap [item] p hp]
    exact hinv p c hcrel2 hc
  · intro hlt2 c hcrel2 hclen2
    exfalso
    simp only [List.length_append, List.length_cons, List.length_nil] at hclen2
    omega

end HeapqAssemble

/-- Entry of the Python heap lists: the tuple `(price, product)` for the
min-heap, `(-price, product)` for the max-heap. -/
abbrev Entry := Int × Product

/-- Python `==` on heap entries is value equality; fix the `BEq` instance
used by `List.erase` on entries to the decidable-equality one, so that the
model's `remove` matches the library's erase lemmas. -/
@[reducible] instance instEntryBEq : BEq Entry := instBEqOfDecidableEq

instance instEntryLawfulBEq : LawfulBEq Entry := by
  constructor
  · intro a b h
    exact of_decide_eq_true h
  · intro a
    exact decide_eq_true rfl

/-- First and second components of an entry. -/
def Entry.price (e : Entry) : Int := e.1

/-- Pure comparison of heap entries by price alone: this is the Python tuple
comparison `(p1, d1) < (p2, d2)` in the exception-free regime where the two
prices differ (on equal prices and different dicts Python raises TypeError —
claim C10; on equal prices and equal dicts both return false). -/
def entryLt (a b : Entry) : Bool := decide (a.1 < b.1)

/-- Default entry for out-of-range indexing (never read in range). -/
def dEntry : Entry := (0, ⟨0, "", "", 0, 0⟩)

/-- State of `DoubleEndedPriorityQueue`: the two Python lists. -/
structure DPQ where
  min_heap : List Entry
  max_heap : List Entry
deriving DecidableEq, Repr

namespace DPQ

/-- Mirrors `DoubleEndedPriorityQueue.__init__`. -/
def empty : DPQ := ⟨[], []⟩

/-- Mirrors `add_product`: `heappush(min_heap, (product['price'], product))`
and `heappush(max_heap, (-product['price'], product))`. -/
def add_product (q : DPQ) (product : Product) : DPQ :=
  ⟨heappush entryLt dEntry q.min_heap (product.price, product),
   heappush entryLt dEntry q.max_heap (-product.price, product)⟩

/-- Mirrors `get_lowest_price_product`: `min_heap[0][1]` when nonempty,
`None` otherwise.  The Python method only reads the list, so the model needs
no state output: peeking leaves both heaps unmodified by construction. -/
def get_lowest_price_product (q : DPQ) : Option Product :=
  match q.min_heap with
  | [] => none
  | e :: _ => some e.2

/-- Mirrors `get_highest_price_product`: `max_heap[0][1]` when nonempty. -/
def get_highest_price_product (q : DPQ) : Option Product :=
  match q.max_heap with
  | [] => none
  | e :: _ => some e.2

/-- Mirrors `remove_product`: `min_heap.remove((price, product))` then
`max_heap.remove((-price, product))` then `heapify` both, under a
`try/except ValueError`.  `list.remove` deletes the first `==`-equal entry
or raises; if the min-entry is present but the max-entry is not, Python
leaves the min list mutated and unheapified (the middle branch below, which
the membership-mirror invariant shows unreachable); if the min-entry is
absent nothing changes. -/
def remove_product (q : DPQ) (product : Product) : DPQ :=
  if (product.price, product) ∈ q.min_heap then
    let min1 := q.min_heap.erase (product.price, product)
    if (-product.price, product) ∈ q.max_heap then
      ⟨heapify entryLt dEntry min1,
       heapify entryLt dEntry (q.max_heap.erase (-product.price, product))⟩
    else ⟨min1, q.max_heap⟩
  else q

/-- Operations of claim C8's "any sequence of add/remove". -/
inductive Op where
  | add (product : Product)
  | remove (product : Product)
deriving DecidableEq, Repr

def applyOp (q : DPQ) : Op → DPQ
  | .add pr => q.add_product pr
  | .remove pr => q.remove_product pr

def applyOps (q : DPQ) : List Op → DPQ
  | [] => q
  | op :: rest => applyOps (q.applyOp op) rest

/-- Prices currently stored in the queue (read off the min-heap). -/
def prices (q : DPQ) : List Int := q.min_heap.map Prod.fst

/-- Records currently stored in the queue (in either heap). -/
def records (q : DPQ) : List Product :=
  q.min_heap.map Prod.snd ++ q.max_heap.map Prod.snd

/-- The op sequence stays in the exception-free regime of the Python tuple
comparisons: every added price is absent from the queue at its add. -/
def safeOps (q : DPQ) : List Op → Bool
  | [] => true
  | .add pr :: rest =>
      decide (pr.price ∉ prices q) && safeOps (q.add_product pr) rest
  | .remove pr :: rest => safeOps (q.remove_product pr) rest

/-- Negated-price view of a min-heap entry, as stored in the max-heap. -/
def negE (e : Entry) : Entry := (-e.1, e.2)

/-- State invariant maintained by `add_product`/`remove_product`: both lists
satisfy the binary-heap shape, the max-heap is a permutation of the
negated min-heap, entry keys equal the stored record's price, and prices
are pairwise distinct. -/
def Inv (q : DPQ) : Prop :=
  (∀ p c : Nat, (c = 2 * p + 1 ∨ c = 2 * p + 2) → c < q.min_heap.length →
      (lget dEntry q.min_heap p).1 ≤ (lget dEntry q.min_heap c).1)
  ∧ (∀ p c : Nat, (c = 2 * p + 1 ∨ c = 2 * p + 2) → c < q.max_heap.length →
      (lget dEntry q.max_heap p).1 ≤ (lget dEntry q.max_heap c).1)
  ∧ q.max_heap.Perm (q.min_heap.map negE)
  ∧ (∀ e ∈ q.min_heap, e.1 = e.2.price)
  ∧ (q.min_heap.map Prod.fst).Pairwise (· ≠ ·)

end DPQ

namespace DPQ

theorem hkeyE : ∀ a b : Entry, entryLt a b = decide (a.1 < b.1) := fun _ _ => rfl

theorem negE_injective : Function.Injective negE := by
  intro a b h
  unfold negE at h
  rw [Prod.ext_iff] at h ⊢
  obtain ⟨h1, h2⟩ := h
  exact ⟨by omega, h2⟩

theorem inv_empty : Inv empty :=
  ⟨fun p c _ hc => absurd hc (by simp [empty]),
   fun p c _ hc => absurd hc (by simp [empty]),
   by simp [empty], by simp [empty], by simp [empty]⟩

theorem inv_add (q : DPQ) (pr : Product) (hq : Inv q) (hfresh : pr.price ∉ prices q) :
    Inv (q.add_product pr) := by
  obtain ⟨hmin, hmax, hmir, hkl, hdist⟩ := hq
  have hpmin := heappush_perm entryLt dEntry q.min_heap ((pr.price, pr) : Entry)
  have hpmax := heappush_perm entryLt dEntry q.max_heap ((-pr.price, pr) : Entry)
  refine ⟨?_, ?_, ?_, ?_, ?_⟩
  · exact heappush_edges entryLt dEntry Prod.fst hkeyE q.min_heap _ hmin
  · exact heappush_edges entryLt dEntry Prod.fst hkeyE q.max_heap _ hmax
  · refine hpmax.trans ?_
    have h2 := hpmin.map negE
    have h1 : ((pr.price, pr) :: q.min_heap).map negE
        = ((-pr.price, pr) : Entry) :: q.min_heap.map negE := by simp [negE]
    rw [h1] at h2
    exact (hmir.cons _).trans h2.symm
  · intro e he
    have h3 := hpmin.mem_iff.mp he
    rcases List.mem_cons.mp h3 with rfl | h4
    · rfl
    · exact hkl e h4
  · have h4 := hpmin.map Prod.fst
    refine (h4.pairwise_iff (fun h => h.symm)).mpr ?_
    simp only [List.map_cons]
    rw [List.pairwise_cons]
    refine ⟨fun b hb hpb => hfresh ?_, hdist⟩
    rw [prices]
    exact hpb ▸ hb

theorem inv_remove (q : DPQ) (pr : Product) (hq : Inv q) : Inv (q.remove_product pr) := by
  obtain ⟨hmin, hmax, hmir, hkl, hdist⟩ := hq
  unfold remove_product
  dsimp only
  split_ifs with h1 h2
  · have hp1 := heapify_perm entryLt dEntry (q.min_heap.erase (pr.price, pr))
    have hp2 := heapify_perm entryLt dEntry (q.max_heap.erase (-pr.price, pr))
    refine ⟨?_, ?_, ?_, ?_, ?_⟩
    · exact heapify_edges entryLt dEntry Prod.fst hkeyE _
    · exact heapify_edges entryLt dEntry Prod.fst hkeyE _
    · refine hp2.trans ?_
      have h3 : (q.max_heap.erase (-pr.price, pr)).Perm
          ((q.min_heap.map negE).erase (-pr.price, pr)) := hmir.erase _
      refine h3.trans ?_
      have h4 : ((q.min_heap.erase (pr.price, pr)).map negE)
          = (q.min_heap.map negE).erase (-pr.price, pr) := by
        rw [List.map_erase negE_injective]
        rfl
      rw [← h4]
      exact (hp1.map negE).symm
    · intro e he
      have h5 := hp1.mem_iff.mp he
      exact hkl e (List.mem_of_mem_erase h5)
    · refine ((hp1.map Prod.fst).pairwise_iff (fun h => h.symm)).mpr ?_
      refine List.Pairwise.sublist ?_ hdist
      exact ((List.erase_sublist (pr.price, pr) q.min_heap).map Prod.fst)
  · exfalso
    apply h2
    have h6 : negE ((pr.price, pr) : Entry) ∈ q.min_heap.map negE :=
      List.mem_map_of_mem negE h1
    exact hmir.mem_iff.mpr h6
  · exact ⟨hmin, hmax, hmir, hkl, hdist⟩

theorem inv_applyOps :
    ∀ (ops : List Op) (q : DPQ), Inv q → safeOps q ops = true → Inv (applyOps q ops) := by
  intro ops
  induction ops with
  | nil => intro q hq _; exact hq
  | cons op rest ih =>
    intro q hq hsafe
    cases op with
    | add pr =>
      rw [safeOps, Bool.and_eq_true, decide_eq_true_eq] at hsafe
      exact ih _ (inv_add q pr hq hsafe.1) hsafe.2
    | remove pr =>
      rw [safeOps] at hsafe
      exact ih _ (inv_remove q pr hq) hsafe

theorem peek_bounds (q : DPQ) (hq : Inv q) :
    (∀ m, q.get_lowest_price_product = some m → ∀ r ∈ records q, m.price ≤ r.price)
    ∧ (∀ m, q.get_highest_price_product = some m → ∀ r ∈ records q, r.price ≤ m.price) := by
  obtain ⟨hmin, hmax, hmir, hkl, hdist⟩ := hq
  have hklmax : ∀ e ∈ q.max_heap, e.1 = -e.2.price := by
    intro e he
    rcases List.mem_map.mp (hmir.mem_iff.mp he) with ⟨e0, he0, rfl⟩
    have := hkl e0 he0
    simp [negE, this]
  have hrootmin := heapInv_root_le entryLt dEntry Prod.fst hkeyE q.min_heap
    ((edgesFrom_key_iff entryLt dEntry Prod.fst hkeyE q.min_heap 0).mpr
      (fun p c _ hcrel hclen => hmin p c hcrel hclen))
  have hrootmax := heapInv_root_le entryLt dEntry Prod.fst hkeyE q.max_heap
    ((edgesFrom_key_iff entryLt dEntry Prod.fst hkeyE q.max_heap 0).mpr
      (fun p c _ hcrel hclen => hmax p c hcrel hclen))
  have hminidx : ∀ e ∈ q.min_heap, (lget dEntry q.min_heap 0).1 ≤ e.1 := by
    intro e he
    rcases List.mem_iff_getElem.mp he with ⟨i, hi, rfl⟩
    rw [← lget_eq_getElem dEntry q.min_heap i hi]
    exact hrootmin i hi
  have hmaxidx : ∀ e ∈ q.max_heap, (lget dEntry q.max_heap 0).1 ≤ e.1 := by
    intro e he
    rcases List.mem_iff_getElem.mp he with ⟨i, hi, rfl⟩
    rw [← lget_eq_getElem dEntry q.max_heap i hi]
    exact hrootmax i hi
  constructor
  · intro m hm r hr
    unfold get_lowest_price_product at hm
    cases hmh : q.min_heap with
    | nil => rw [hmh] at hm; exact absurd hm (by simp)
    | cons e rest =>
      rw [hmh] at hm
      dsimp only at hm
      injection hm with hm
      subst hm
      have hehead : e ∈ q.min_heap := by rw [hmh]; exact List.mem_cons_self _ _
      have hroot0 : (lget dEntry q.min_heap 0).1 = e.1 := by rw [hmh]; rfl
      have heprice : e.1 = e.2.price := hkl e hehead
      rcases List.mem_append.mp hr with hr1 | hr1
      · rcases List.mem_map.mp hr1 with ⟨f, hf, rfl⟩
        have h5 := hminidx f hf
        have h6 := hkl f hf
        rw [hroot0] at h5
        omega
      · rcases List.mem_map.mp hr1 with ⟨f, hf, rfl⟩
        rcases List.mem_map.mp (hmir.mem_iff.mp hf) with ⟨f0, hf0, rfl⟩
        have h5 := hminidx f0 hf0
        have h6 := hkl f0 hf0
        rw [hroot0] at h5
        show e.2.price ≤ f0.2.price
        omega
  · intro m hm r hr
    unfold get_highest_price_product at hm
    cases hmh : q.max_heap with
    | nil => rw [hmh] at hm; exact absurd hm (by simp)
    | cons e rest =>
      rw [hmh] at hm
      dsimp only at hm
      injection hm with hm
      subst hm
      have hehead : e ∈ q.max_heap := by rw [hmh]; exact List.mem_cons_self _ _
      have hroot0 : (lget dEntry q.max_heap 0).1 = e.1 := by rw [hmh]; rfl
      have heprice : e.1 = -e.2.price := hklmax e hehead
      rcases List.mem_append.mp hr with hr1 | hr1
      · rcases List.mem_map.mp hr1 with ⟨f, hf, rfl⟩
        have hfm : negE f ∈ q.max_heap := hmir.mem_iff.mpr (List.mem_map_of_mem negE hf)
        have h5 := hmaxidx (negE f) hfm
        have h6 := hkl f hf
        rw [hroot0] at h5
        have h7 : (negE f).1 = -f.1 := rfl
        show f.2.price ≤ e.2.price
        omega
      · rcases List.mem_map.mp hr1 with ⟨f, hf, rfl⟩
        have h5 := hmaxidx f hf
        have h6 := hklmax f hf
        rw [hroot0] at h5
        omega

end DPQ

/-- C8: after any sequence of DualHeapQueue `add`/`remove` operations (in
the exception-free regime where each added price is new — an equal-price add
raises TypeError instead, claim C10), `peekMin` returns a record whose
price is less than or equal to the price of every record currently in the
queue and `peekMax` one whose price is greater than or equal to every such
price, and both peeks return nothing on an empty heap.  The peeks are
read-only functions of the state, mirroring the Python methods which only
index the lists without mutating them. -/
theorem C8_dual_heap_consistency (ops : List DPQ.Op)
    (hsafe : DPQ.safeOps DPQ.empty ops = true) :
    (∀ m, (DPQ.applyOps DPQ.empty ops).get_lowest_price_product = some m →
        ∀ r ∈ DPQ.records (DPQ.applyOps DPQ.empty ops), m.price ≤ r.price)
    ∧ (∀ m, (DPQ.applyOps DPQ.empty ops).get_highest_price_product = some m →
        ∀ r ∈ DPQ.records (DPQ.applyOps DPQ.empty ops), r.price ≤ m.price)
    ∧ ((DPQ.applyOps DPQ.empty ops).min_heap = [] →
        (DPQ.applyOps DPQ.empty ops).get_lowest_price_product = none)
    ∧ ((DPQ.applyOps DPQ.empty ops).max_heap = [] →
        (DPQ.applyOps DPQ.empty ops).get_highest_price_product = none) := by
  have hinv := DPQ.inv_applyOps ops DPQ.empty DPQ.inv_empty hsafe
  obtain ⟨hb1, hb2⟩ := DPQ.peek_bounds _ hinv
  refine ⟨hb1, hb2, ?_, ?_⟩
  · intro h; rw [DPQ.get_lowest_price_product, h]
  · intro h; rw [DPQ.get_highest_price_product, h]

/-- C8 witness: the theorem applied to the concrete sequence
add(301@100), add(302@50), remove(301), add(304@100) — in particular a price
may be reused after its record is removed. -/
theorem C8_dual_heap_consistency_witness :
    (DPQ.safeOps DPQ.empty
        [DPQ.Op.add prodA, DPQ.Op.add prodB, DPQ.Op.remove prodA, DPQ.Op.add prodD] = true)
    ∧ ((∀ m, (DPQ.applyOps DPQ.empty
          [DPQ.Op.add prodA, DPQ.Op.add prodB, DPQ.Op.remove prodA, DPQ.Op.add prodD]).get_lowest_price_product = some m →
        ∀ r ∈ DPQ.records (DPQ.applyOps DPQ.empty
          [DPQ.Op.add prodA, DPQ.Op.add prodB, DPQ.Op.remove prodA, DPQ.Op.add prodD]), m.price ≤ r.price)
    ∧ (∀ m, (DPQ.applyOps DPQ.empty
          [DPQ.Op.add prodA, DPQ.Op.add prodB, DPQ.Op.remove prodA, DPQ.Op.add prodD]).get_highest_price_product = some m →
        ∀ r ∈ DPQ.records (DPQ.applyOps DPQ.empty
          [DPQ.Op.add prodA, DPQ.Op.add prodB, DPQ.Op.remove prodA, DPQ.Op.add prodD]), r.price ≤ m.price)
    ∧ ((DPQ.applyOps DPQ.empty
          [DPQ.Op.add prodA, DPQ.Op.add prodB, DPQ.Op.remove prodA, DPQ.Op.add prodD]).min_heap = [] →
        (DPQ.applyOps DPQ.empty
          [DPQ.Op.add prodA, DPQ.Op.add prodB, DPQ.Op.remove prodA, DPQ.Op.add prodD]).get_lowest_price_product = none)
    ∧ ((DPQ.applyOps DPQ.empty
          [DPQ.Op.add prodA, DPQ.Op.add prodB, DPQ.Op.remove prodA, DPQ.Op.add prodD]).max_heap = [] →
        (DPQ.applyOps DPQ.empty
          [DPQ.Op.add prodA, DPQ.Op.add prodB, DPQ.Op.remove prodA, DPQ.Op.add prodD]).get_highest_price_product = none)) :=
  ⟨by simp [DPQ.safeOps, DPQ.add_product, DPQ.remove_product, DPQ.prices, DPQ.empty,
      heappush, siftdown, heapify, heapifyAux, siftup, siftupLoop, lget, entryLt,
      prodA, prodB, prodD, dEntry],
   C8_dual_heap_consistency
      [DPQ.Op.add prodA, DPQ.Op.add prodB, DPQ.Op.remove prodA, DPQ.Op.add prodD]
      (by simp [DPQ.safeOps, DPQ.add_product, DPQ.remove_product, DPQ.prices, DPQ.empty,
        heappush, siftdown, heapify, heapifyAux, siftup, siftupLoop, lget, entryLt,
        prodA, prodB, prodD, dEntry])⟩

/-- Python tuple comparison `(p1, d1) < (p2, d2)` on heap entries: compares
the prices; on equal prices it falls through to the dict payloads, where
`==` is fine but `<` raises TypeError (`Except.error ()`). -/
def tupLt (a b : Entry) : Except Unit Bool :=
  if a.1 < b.1 then Except.ok true
  else if b.1 < a.1 then Except.ok false
  else if a.2 = b.2 then Except.ok false
  else Except.error ()

/-- CPython `_siftdown` in the exception-aware model: a TypeError raised by
a comparison propagates, leaving the list as appended (no write happens
before the first comparison). -/
def siftdownE (heap : List Entry) (startpos pos : Nat) (newitem : Entry) :
    Except Unit (List Entry) :=
  if startpos < pos then
    let parentpos := (pos - 1) / 2
    let parent := lget dEntry heap parentpos
    match tupLt newitem parent with
    | Except.error e => Except.error e
    | Except.ok true => siftdownE (heap.set pos parent) startpos parentpos newitem
    | Except.ok false => Except.ok (heap.set pos newitem)
  else Except.ok (heap.set pos newitem)
termination_by pos
decreasing_by simp_wf; omega

/-- CPython `heappush` with the Python comparison semantics. -/
def heappushE (heap : List Entry) (item : Entry) : Except Unit (List Entry) :=
  siftdownE (heap ++ [item]) 0 heap.length item

namespace DPQ

/-- `add_product` with the Python comparison semantics: the min-heap push
runs first; a TypeError from either push propagates unhandled. -/
def add_productE (q : DPQ) (product : Product) : Except Unit DPQ :=
  match heappushE q.min_heap (product.price, product) with
  | Except.error e => Except.error e
  | Except.ok mn =>
    match heappushE q.max_heap (-product.price, product) with
    | Except.error e => Except.error e
    | Except.ok mx => Except.ok ⟨mn, mx⟩

end DPQ

/-- In the exception-free regime — the pushed entry's price differing from
every price in the list — the Python-semantics sift agrees with the pure
price-comparison model and never raises. -/
theorem siftdownE_eq_ok :
    ∀ (pos : Nat) (heap : List Entry) (startpos : Nat) (newitem : Entry),
    pos < heap.length →
    (∀ i, i < pos → (lget dEntry heap i).1 ≠ newitem.1) →
    siftdownE heap startpos pos newitem
      = Except.ok (siftdown entryLt dEntry heap startpos pos newitem) := by
  intro pos
  induction pos using Nat.strong_induction_on with
  | _ pos ih =>
    intro heap startpos newitem hlen hne
    unfold siftdownE
    dsimp only
    split_ifs with h1
    · have hparent : (lget dEntry heap ((pos - 1) / 2)).1 ≠ newitem.1 :=
        hne _ (by omega)
      have htup : tupLt newitem (lget dEntry heap ((pos - 1) / 2))
          = Except.ok (entryLt newitem (lget dEntry heap ((pos - 1) / 2))) := by
        unfold tupLt entryLt
        split_ifs with c1 c2 c3 <;> simp_all <;> omega
      have hsd : siftdown entryLt dEntry heap startpos pos newitem
          = if entryLt newitem (lget dEntry heap ((pos - 1) / 2)) then
              siftdown entryLt dEntry (heap.set pos (lget dEntry heap ((pos - 1) / 2)))
                startpos ((pos - 1) / 2) newitem
            else heap.set pos newitem := by
        rw [siftdown.eq_def]
        dsimp only
        rw [if_pos h1]
      by_cases hb : entryLt newitem (lget dEntry heap ((pos - 1) / 2)) = true
      · rw [hsd, if_pos hb, htup, hb]
        dsimp only
        refine ih ((pos - 1) / 2) (by omega) _ startpos newitem
          (by simp only [List.length_set]; omega) ?_
        intro i hi
        rw [lget_set_ne dEntry heap pos i _ (by omega)]
        exact hne i (by omega)
      · rw [Bool.not_eq_true] at hb
        rw [hsd, if_neg (by simp [hb]), htup, hb]
    · have hsd : siftdown entryLt dEntry heap startpos pos newitem
          = heap.set pos newitem := by
        rw [siftdown.eq_def]
        dsimp only
        rw [if_neg h1]
      rw [hsd]

/-- In the fresh-price regime `heappush` with Python comparison semantics
agrees with the price-only model and never raises. -/
theorem heappushE_eq_ok (heap : List Entry) (item : Entry)
    (hne : ∀ e ∈ heap, e.1 ≠ item.1) :
    heappushE heap item = Except.ok (heappush entryLt dEntry heap item) := by
  unfold heappushE heappush
  refine siftdownE_eq_ok heap.length (heap ++ [item]) 0 item (by simp) ?_
  intro i hi
  rw [lget_append_left dEntry heap [item] i hi]
  exact hne _ (lget_mem dEntry heap i hi)

/-- C10: `DoubleEndedPriorityQueue.add_product` is exception-free exactly in
the fresh-price regime: when the inserted price (resp. its negation, for the
max-heap) differs from every key already in the corresponding heap, the
Python-comparison push succeeds and agrees with the price-only model; and
there is a concrete pair of adds with equal prices and distinct product
dictionaries (301 and 304, both priced 100) where `heappush`'s tuple
comparison falls through from the equal prices to the dict payloads and
raises an unhandled TypeError. -/
theorem C10_equal_price_type_error :
    (∀ (q : DPQ) (product : Product),
        (∀ e ∈ q.min_heap, e.1 ≠ product.price) →
        (∀ e ∈ q.max_heap, e.1 ≠ -product.price) →
        DPQ.add_productE q product = Except.ok (DPQ.add_product q product))
    ∧ prodA.price = prodD.price ∧ prodA ≠ prodD
    ∧ (∃ q1, DPQ.add_productE DPQ.empty prodA = Except.ok q1 ∧
        DPQ.add_productE q1 prodD = Except.error ()) := by
  refine ⟨?_, by simp [prodA, prodD], by simp [prodA, prodD], ?_⟩
  · intro q product hmin hmax
    unfold DPQ.add_productE DPQ.add_product
    rw [heappushE_eq_ok q.min_heap (product.price, product) hmin]
    rw [heappushE_eq_ok q.max_heap (-product.price, product) hmax]
  · refine ⟨⟨[(100, prodA)], [(-100, prodA)]⟩, ?_, ?_⟩
    · simp [DPQ.add_productE, DPQ.empty, heappushE, siftdownE, prodA]
    · simp [DPQ.add_productE, heappushE, siftdownE, tupLt, lget, prodA, prodD, dEntry]

/-- C10 witness: the fresh-price half of the theorem applied to the empty
queue and product 302: both Python-semantics pushes succeed. -/
theorem C10_equal_price_type_error_witness :
    DPQ.add_productE DPQ.empty prodB = Except.ok (DPQ.add_product DPQ.empty prodB) :=
  C10_equal_price_type_error.1 DPQ.empty prodB
    (by intro e he; simp [DPQ.empty] at he)
    (by intro e he; simp [DPQ.empty] at he)

/-! ### RangeTree (`range_tree.py`): multi-attribute querying

Records are Python dicts from attribute names to values (ints or strings);
`record[key]` raises KeyError when the attribute is missing, and comparing
an int with a string raises TypeError; both are modeled as `Except.error ()`.
`query_by_parameters` checks `all(low <= record[key] <= high for key, (low,
high) in filters.items())` at every node and recurses into both children
unconditionally. -/

inductive PVal where
  | int (i : Int)
  | str (s : String)
deriving DecidableEq, Repr

abbrev RProd := List (String × PVal)

def plookup (r : RProd) (k : String) : Except Unit PVal :=
  match r.find? (fun kv => kv.1 == k) with
  | some kv => Except.ok kv.2
  | none => Except.error ()

def vle (a b : PVal) : Except Unit Bool :=
  match a, b with
  | PVal.int x, PVal.int y => Except.ok (decide (x ≤ y))
  | PVal.str x, PVal.str y => Except.ok (decide (x ≤ y))
  | _, _ => Except.error ()

def checkFilters (r : RProd) : List (String × PVal × PVal) → Except Unit Bool
  | [] => Except.ok true
  | (k, lo, hi) :: rest =>
    match plookup r k with
    | Except.error e => Except.error e
    | Except.ok v =>
      match vle lo v with
      | Except.error e => Except.error e
      | Except.ok false => Except.ok false
      | Except.ok true =>
        match vle v hi with
        | Except.error e => Except.error e
        | Except.ok false => Except.ok false
        | Except.ok true => checkFilters r rest

/-- `checkFilters` succeeded (no KeyError/TypeError was raised). -/
def checkOk (filters : List (String × PVal × PVal)) (r : RProd) : Bool :=
  match checkFilters r filters with
  | Except.ok _ => true
  | Except.error _ => false

/-- `checkFilters` succeeded with every filter passing. -/
def passes (filters : List (String × PVal × PVal)) (r : RProd) : Bool :=
  match checkFilters r filters with
  | Except.ok b => b
  | Except.error _ => false

inductive RangeTree where
  | nil : RangeTree
  | node (product : RProd) (left right : RangeTree) : RangeTree
deriving DecidableEq, Repr

namespace RangeTree

def query_by_parameters (filters : List (String × PVal × PVal)) :
    RangeTree → Except Unit (List RProd)
  | nil => Except.ok []
  | node p l r =>
    match checkFilters p filters with
    | Except.error e => Except.error e
    | Except.ok b =>
      match query_by_parameters filters l with
      | Except.error e => Except.error e
      | Except.ok resL =>
        match query_by_parameters filters r with
        | Except.error e => Except.error e
        | Except.ok resR => Except.ok ((if b then [p] else []) ++ resL ++ resR)

def rtElems : RangeTree → List RProd
  | nil => []
  | node p l r => p :: (rtElems l ++ rtElems r)

end RangeTree

theorem rtQuery_eq_filter (filters : List (String × PVal × PVal)) :
    ∀ t : RangeTree, (∀ r ∈ t.rtElems, checkOk filters r = true) →
    RangeTree.query_by_parameters filters t
      = Except.ok (t.rtElems.filter (passes filters)) := by
  intro t
  induction t with
  | nil => intro _; rfl
  | node p l r ihl ihr =>
    intro h
    have hp : checkOk filters p = true := h p (by simp [RangeTree.rtElems])
    have hL := ihl (fun x hx => h x (by simp [RangeTree.rtElems, hx]))
    have hR := ihr (fun x hx => h x (by simp [RangeTree.rtElems, hx]))
    simp only [RangeTree.query_by_parameters, hL, hR, RangeTree.rtElems]
    cases hcf : checkFilters p filters with
    | error e => simp [checkOk, hcf] at hp
    | ok b =>
      simp only [List.filter_cons, List.filter_append, passes, hcf]
      cases b <;> simp

theorem rtQuery_error (filters : List (String × PVal × PVal)) :
    ∀ t : RangeTree, ∀ r ∈ t.rtElems, checkOk filters r = false →
    RangeTree.query_by_parameters filters t = Except.error () := by
  intro t
  induction t with
  | nil => intro r hr; simp [RangeTree.rtElems] at hr
  | node p l rt ihl ihr =>
    intro r hr hfalse
    simp only [RangeTree.rtElems, List.mem_cons, List.mem_append] at hr
    simp only [RangeTree.query_by_parameters]
    cases hcf : checkFilters p filters with
    | error e => cases e; rfl
    | ok b =>
      dsimp only
      rcases hr with h | h | h
      · subst h; simp [checkOk, hcf] at hfalse
      · rw [ihl r h hfalse]
      · cases hql : RangeTree.query_by_parameters filters l with
        | error e => cases e; rfl
        | ok resL => rw [ihr r h hfalse]

theorem rtQuery_nil_filters :
    ∀ t : RangeTree, RangeTree.query_by_parameters [] t = Except.ok t.rtElems := by
  intro t
  induction t with
  | nil => rfl
  | node p l r ihl ihr =>
    simp only [RangeTree.query_by_parameters, RangeTree.rtElems, ihl, ihr, checkFilters]
    rfl

theorem checkFilters_error_head (k : String) (lo hi : PVal)
    (rest : List (String × PVal × PVal)) (r : RProd)
    (h : plookup r k = Except.error ()) :
    checkFilters r ((k, lo, hi) :: rest) = Except.error () := by
  simp only [checkFilters, h]

/-- C7 counterexample: the spec requires that a record missing a filtered
attribute produce a lookup error rather than being silently skipped, but
`all(...)` short-circuits: the record `{a: 99}` fails the first filter
`a ∈ [0,10]`, so the second filter's missing attribute `b` is never looked
up — the query succeeds with an empty result even though `plookup` on `b`
would raise KeyError. -/
theorem C7_counterexample :
    RangeTree.query_by_parameters
      [("a", PVal.int 0, PVal.int 10), ("b", PVal.int 0, PVal.int 10)]
      (RangeTree.node [("a", PVal.int 99)] RangeTree.nil RangeTree.nil)
      = Except.ok []
    ∧ plookup [("a", PVal.int 99)] "b" = Except.error () := ⟨rfl, rfl⟩

/-- C7 (amended): `query_by_parameters` visits both children of every node
unconditionally and, whenever no filter evaluation raises on any record in
the tree, returns exactly the records (in node-left-right order over the
whole tree) satisfying `low ≤ record[attr] ≤ high` for every filter; an
empty filters mapping matches every record; if filter evaluation raises on
some record of the tree the whole query raises, and in particular a record
missing the attribute of its FIRST filter raises a lookup error — but a
record failing an earlier filter with a later filtered attribute missing is
silently skipped (see the counterexample), so the spec's unconditional
lookup-error sentence does not hold. -/
theorem C7_multi_attribute_query :
    (∀ (filters : List (String × PVal × PVal)) (t : RangeTree),
        (∀ r ∈ t.rtElems, checkOk filters r = true) →
        RangeTree.query_by_parameters filters t
          = Except.ok (t.rtElems.filter (passes filters)))
    ∧ (∀ t : RangeTree, RangeTree.query_by_parameters [] t = Except.ok t.rtElems)
    ∧ (∀ (filters : List (String × PVal × PVal)) (t : RangeTree),
        ∀ r ∈ t.rtElems, checkOk filters r = false →
        RangeTree.query_by_parameters filters t = Except.error ())
    ∧ (∀ (k : String) (lo hi : PVal) (rest : List (String × PVal × PVal)) (r : RProd),
        plookup r k = Except.error () →
        checkFilters r ((k, lo, hi) :: rest) = Except.error ()) :=
  ⟨rtQuery_eq_filter, rtQuery_nil_filters, rtQuery_error, checkFilters_error_head⟩

/-- C7 witness: a concrete two-record tree with a price filter; both records
have the attribute, the query succeeds and keeps exactly the in-range
record. -/
theorem C7_multi_attribute_query_witness :
    (∀ r ∈ (RangeTree.node [("price", PVal.int 100), ("quantity", PVal.int 10)]
        RangeTree.nil
        (RangeTree.node [("price", PVal.int 600), ("quantity", PVal.int 5)]
          RangeTree.nil RangeTree.nil)).rtElems,
      checkOk [("price", PVal.int 100, PVal.int 500)] r = true)
    ∧ RangeTree.query_by_parameters [("price", PVal.int 100, PVal.int 500)]
        (RangeTree.node [("price", PVal.int 100), ("quantity", PVal.int 10)]
          RangeTree.nil
          (RangeTree.node [("price", PVal.int 600), ("quantity", PVal.int 5)]
            RangeTree.nil RangeTree.nil))
      = Except.ok ((RangeTree.node [("price", PVal.int 100), ("quantity", PVal.int 10)]
          RangeTree.nil
          (RangeTree.node [("price", PVal.int 600), ("quantity", PVal.int 5)]
            RangeTree.nil RangeTree.nil)).rtElems.filter
            (passes [("price", PVal.int 100, PVal.int 500)]))
    ∧ (RangeTree.node [("price", PVal.int 100), ("quantity", PVal.int 10)]
          RangeTree.nil
          (RangeTree.node [("price", PVal.int 600), ("quantity", PVal.int 5)]
            RangeTree.nil RangeTree.nil)).rtElems.filter
            (passes [("price", PVal.int 100, PVal.int 500)])
      = [[("price", PVal.int 100), ("quantity", PVal.int 10)]] :=
  ⟨by decide,
   C7_multi_attribute_query.1 [("price", PVal.int 100, PVal.int 500)]
     (RangeTree.node [("price", PVal.int 100), ("quantity", PVal.int 10)]
       RangeTree.nil
       (RangeTree.node [("price", PVal.int 600), ("quantity", PVal.int 5)]
         RangeTree.nil RangeTree.nil))
     (by decide),
   by decide⟩

/-! ### Object-identity model of `AVLTree.get_products_in_range`'s `lru_cache`

Python's `@lru_cache(maxsize=256)` on `get_products_in_range(self, root,
low_price, high_price)` keys the cache on the *reference* `root`, while
`insert` mutates nodes in place (`root.left = ...`, `root.height = ...`)
and usually returns the same root object.  Nodes live in a `Store` arena
keyed by identity; `Option Nat` is a possibly-null reference.  Traversals
and `insert` take fuel (a cyclic heap would make Python recurse forever;
`none` = nontermination/attribute error, never hit on stores built by
`insert`).  The cache is an association list from `(root, low, high)` keys
to results; below the 256-entry capacity Python's lru_cache stores every
new result, which an append models (eviction at capacity is outside every
statement below, which concern return values and small caches). -/

structure NodeRec where
  price : Int
  product : Product
  left : Option Nat
  right : Option Nat
  height : Nat
deriving DecidableEq, Repr

structure Store where
  nodes : List (Nat × NodeRec)
  next : Nat
deriving DecidableEq, Repr

def findNode (s : Store) (i : Nat) : Option NodeRec :=
  match s.nodes.find? (fun kv => kv.1 == i) with
  | some kv => some kv.2
  | none => none

def setNode (s : Store) (i : Nat) (nd : NodeRec) : Store :=
  ⟨s.nodes.map (fun kv => if kv.1 == i then (i, nd) else kv), s.next⟩

def allocNode (s : Store) (nd : NodeRec) : Store × Nat :=
  (⟨s.nodes ++ [(s.next, nd)], s.next + 1⟩, s.next)

namespace Arena

def get_height (s : Store) (n : Option Nat) : Nat :=
  match n with
  | none => 0
  | some i =>
    match findNode s i with
    | some nd => nd.height
    | none => 0

def get_balance (s : Store) (n : Option Nat) : Int :=
  match n with
  | none => 0
  | some i =>
    match findNode s i with
    | some nd => (get_height s nd.left : Int) - get_height s nd.right
    | none => 0

def rotate_left (s : Store) (zi : Nat) : Option (Store × Nat) :=
  match findNode s zi with
  | none => none
  | some z =>
    match z.right with
    | none => none
    | some yi =>
      match findNode s yi with
      | none => none
      | some y =>
        let t2 := y.left
        let s1 := setNode s yi ⟨y.price, y.product, some zi, y.right, y.height⟩
        let s2 := setNode s1 zi ⟨z.price, z.product, z.left, t2, z.height⟩
        let zh := 1 + max (get_height s2 z.left) (get_height s2 t2)
        let s3 := setNode s2 zi ⟨z.price, z.product, z.left, t2, zh⟩
        let yh := 1 + max (get_height s3 (some zi)) (get_height s3 y.right)
        let s4 := setNode s3 yi ⟨y.price, y.product, some zi, y.right, yh⟩
        some (s4, yi)

def rotate_right (s : Store) (zi : Nat) : Option (Store × Nat) :=
  match findNode s zi with
  | none => none
  | some z =>
    match z.left with
    | none => none
    | some yi =>
      match findNode s yi with
      | none => none
      | some y =>
        let t3 := y.right
        let s1 := setNode s yi ⟨y.price, y.product, y.left, some zi, y.height⟩
        let s2 := setNode s1 zi ⟨z.price, z.product, t3, z.right, z.height⟩
        let zh := 1 + max (get_height s2 t3) (get_height s2 z.right)
        let s3 := setNode s2 zi ⟨z.price, z.product, t3, z.right, zh⟩
        let yh := 1 + max (get_height s3 y.left) (get_height s3 (some zi))
        let s4 := setNode s3 yi ⟨y.price, y.product, y.left, some zi, yh⟩
        some (s4, yi)

/-- The height-update / balance / rotation epilogue of `insert`, run after
the recursive call wrote the new child pointer into node `ri`. -/
def afterIns (s : Store) (ri : Nat) (price : Int) : Option (Store × Nat) :=
  match findNode s ri with
  | none => none
  | some rt =>
    let s1 := setNode s ri
      ⟨rt.price, rt.product, rt.left, rt.right,
        1 + max (get_height s rt.left) (get_height s rt.right)⟩
    let balance := get_balance s1 (some ri)
    if 1 < balance then
      match rt.left with
      | none => none
      | some li =>
        match findNode s1 li with
        | none => none
        | some lnd =>
          if price < lnd.price then rotate_right s1 ri
          else if lnd.price < price then
            match rotate_left s1 li with
            | none => none
            | some (s2, nli) =>
              match findNode s2 ri with
              | none => none
              | some rt2 =>
                rotate_right
                  (setNode s2 ri ⟨rt2.price, rt2.product, some nli, rt2.right, rt2.height⟩) ri
          else some (s1, ri)
    else if balance < -1 then
      match rt.right with
      | none => none
      | some qi =>
        match findNode s1 qi with
        | none => none
        | some qnd =>
          if qnd.price < price then rotate_left s1 ri
          else if price < qnd.price then
            match rotate_right s1 qi with
            | none => none
            | some (s2, nri) =>
              match findNode s2 ri with
              | none => none
              | some rt2 =>
                rotate_left
                  (setNode s2 ri ⟨rt2.price, rt2.product, rt2.left, some nri, rt2.height⟩) ri
          else some (s1, ri)
    else some (s1, ri)

def insert (s : Store) : Nat → Option Nat → Int → Product → Option (Store × Nat)
  | 0, _, _, _ => none
  | _ + 1, none, price, product => some (allocNode s ⟨price, product, none, none, 1⟩)
  | fuel + 1, some ri, price, product =>
    match findNode s ri with
    | none => none
    | some rt =>
      if price < rt.price then
        match insert s fuel rt.left price product with
        | none => none
        | some (s1, ci) =>
          match findNode s1 ri with
          | none => none
          | some rt1 =>
            afterIns (setNode s1 ri ⟨rt1.price, rt1.product, some ci, rt1.right, rt1.height⟩)
              ri price
      else if rt.price < price then
        match insert s fuel rt.right price product with
        | none => none
        | some (s1, ci) =>
          match findNode s1 ri with
          | none => none
          | some rt1 =>
            afterIns (setNode s1 ri ⟨rt1.price, rt1.product, rt1.left, some ci, rt1.height⟩)
              ri price
      else some (s, ri)

def get_products_in_range_recursive (s : Store) :
    Nat → Option Nat → Int → Int → Option (List Product)
  | 0, _, _, _ => none
  | _ + 1, none, _, _ => some []
  | fuel + 1, some i, low, high =>
    match findNode s i with
    | none => none
    | some nd =>
      match (if low < nd.price then get_products_in_range_recursive s fuel nd.left low high
             else some []) with
      | none => none
      | some rl =>
        match (if nd.price < high then get_products_in_range_recursive s fuel nd.right low high
               else some []) with
        | none => none
        | some rr =>
          some ((if low ≤ nd.price ∧ nd.price ≤ high then [nd.product] else []) ++ rl ++ rr)

end Arena

structure CachedTree where
  store : Store
  cache : List ((Option Nat × Int × Int) × List Product)
deriving DecidableEq, Repr

/-- The `lru_cache`-decorated public query: a hit returns the previously
stored result without touching the tree; a miss runs the recursive
traversal on the current store and records the result. -/
def Arena.get_products_in_range (c : CachedTree) (root : Option Nat) (low high : Int) :
    Option (List Product × CachedTree) :=
  match c.cache.find? (fun e => e.1 == (root, low, high)) with
  | some e => some (e.2, c)
  | none =>
    match Arena.get_products_in_range_recursive c.store (c.store.nodes.length + 1)
        root low high with
    | none => none
    | some res => some (res, ⟨c.store, c.cache ++ [((root, low, high), res)]⟩)

/-- `root` in store `s` spells out the pure tree `t` (identifying each
reachable node with its record; finite derivations rule out cycles). -/
inductive Represents (s : Store) : Option Nat → AVL → Prop where
  | nil : Represents s none AVL.nil
  | node (i : Nat) (nd : NodeRec) (l r : AVL) :
      findNode s i = some nd →
      Represents s nd.left l →
      Represents s nd.right r →
      Represents s (some i) (AVL.node nd.price nd.product l r nd.height)

def AVL.depth : AVL → Nat
  | AVL.nil => 0
  | AVL.node _ _ l r _ => 1 + max (AVL.depth l) (AVL.depth r)

theorem arena_rec_agrees (s : Store) (low high : Int) :
    ∀ (t : AVL) (root : Option Nat) (fuel : Nat),
    Represents s root t → AVL.depth t < fuel →
    Arena.get_products_in_range_recursive s fuel root low high
      = some (AVL.get_products_in_range_recursive t low high) := by
  intro t
  induction t with
  | nil =>
    intro root fuel hrep hd
    cases hrep
    cases fuel with
    | zero => omega
    | succ fuel => rfl
  | node p pr l r h ihl ihr =>
    intro root fuel hrep hd
    cases hrep with
    | node i nd l' r' hfind hl hr =>
      cases fuel with
      | zero => omega
      | succ fuel =>
        have hdl : AVL.depth l < fuel := by simp [AVL.depth] at hd; omega
        have hdr : AVL.depth r < fuel := by simp [AVL.depth] at hd; omega
        simp only [Arena.get_products_in_range_recursive, hfind,
          AVL.get_products_in_range_recursive]
        by_cases hc1 : low < nd.price
        · rw [if_pos hc1, if_pos hc1, ihl nd.left fuel hl hdl]
          by_cases hc2 : nd.price < high
          · rw [if_pos hc2, if_pos hc2, ihr nd.right fuel hr hdr]
          · rw [if_neg hc2, if_neg hc2]
        · rw [if_neg hc1, if_neg hc1]
          by_cases hc2 : nd.price < high
          · rw [if_pos hc2, if_pos hc2, ihr nd.right fuel hr hdr]
          · rw [if_neg hc2, if_neg hc2]

def store0 : Store := ⟨[(0, ⟨100, prodA, none, none, 1⟩)], 1⟩

def store1 : Store :=
  ⟨[(0, ⟨100, prodA, none, some 1, 2⟩), (1, ⟨150, prodC, none, none, 1⟩)], 2⟩

/-- C9 counterexample: query the 1-node tree at root object 0 for range
[0, 200] (cache miss, result = product 301); `insert(root, 150, 303)`
mutates node 0 in place and returns the SAME root object 0; the repeated
identical call now hits the cache and still returns only product 301, while
a fresh traversal of the mutated tree returns products 301 and 303. -/
theorem C9_counterexample :
    Arena.get_products_in_range ⟨store0, []⟩ (some 0) 0 200
      = some ([prodA], ⟨store0, [((some 0, 0, 200), [prodA])]⟩)
    ∧ Arena.insert store0 2 (some 0) 150 prodC = some (store1, 0)
    ∧ Arena.get_products_in_range ⟨store1, [((some 0, 0, 200), [prodA])]⟩ (some 0) 0 200
      = some ([prodA], ⟨store1, [((some 0, 0, 200), [prodA])]⟩)
    ∧ Arena.get_products_in_range_recursive store1 3 (some 0) 0 200
      = some [prodA, prodC] :=
  ⟨rfl, rfl, rfl, rfl⟩

/-- C9 (amended): the public range query is equivalent to a fresh uncached
pruned traversal of the tree reachable from `root` ONLY on a cache miss:
when `(root, low, high)` is not a key of the cache and `root` spells out the
pure tree `t` in the current store, the call returns exactly the fresh
recursive traversal of `t` (and records it); but on a cache hit the call
returns the previously stored result and ignores the current store
entirely, so a mutation between two identical calls that keeps the root
object is NOT reflected (see the counterexample), refuting the claim. -/
theorem C9_range_query_refinement :
    (∀ (c : CachedTree) (root : Option Nat) (low high : Int) (t : AVL),
        Represents c.store root t →
        AVL.depth t ≤ c.store.nodes.length →
        c.cache.find? (fun e => e.1 == (root, low, high)) = none →
        Arena.get_products_in_range c root low high
          = some (AVL.get_products_in_range_recursive t low high,
              ⟨c.store, c.cache
                ++ [((root, low, high), AVL.get_products_in_range_recursive t low high)]⟩))
    ∧ (∀ (c : CachedTree) (root : Option Nat) (low high : Int) (key : Option Nat × Int × Int)
          (res : List Product),
        c.cache.find? (fun e => e.1 == (root, low, high)) = some (key, res) →
        Arena.get_products_in_range c root low high = some (res, c)) := by
  constructor
  · intro c root low high t hrep hd hmiss
    rw [Arena.get_products_in_range, hmiss]
    rw [arena_rec_agrees c.store low high t root (c.store.nodes.length + 1) hrep (by omega)]
  · intro c root low high key res hhit
    rw [Arena.get_products_in_range, hhit]

/-- C9 witness: the miss half of the theorem applied to the 1-node store
with an empty cache (the first call of the counterexample scenario). -/
theorem C9_range_query_refinement_witness :
    Arena.get_products_in_range ⟨store0, []⟩ (some 0) 0 200
      = some (AVL.get_products_in_range_recursive (AVL.node 100 prodA AVL.nil AVL.nil 1) 0 200,
          ⟨store0, [((some 0, 0, 200),
            AVL.get_products_in_range_recursive (AVL.node 100 prodA AVL.nil AVL.nil 1) 0 200)]⟩) :=
  C9_range_query_refinement.1 ⟨store0, []⟩ (some 0) 0 200
    (AVL.node 100 prodA AVL.nil AVL.nil 1)
    (Represents.node 0 ⟨100, prodA, none, none, 1⟩ AVL.nil AVL.nil rfl
      Represents.nil Represents.nil)
    (by decide) rfl

/-! ### Exception-aware heapq, generic in the comparison

The same CPython algorithms as the pure section, with a comparison that can
raise (`Except.error ()` = TypeError); a raise propagates.  CPython mutates
the list in place, so a raise can leave it partially permuted; the `error`
result drops that partial list — no statement below inspects the contents
of a structure inside which a raise occurred. -/

section HeapqE

variable {α : Type} (ltE : α → α → Except Unit Bool) (dflt : α)

def siftdownX (heap : List α) (startpos pos : Nat) (newitem : α) :
    Except Unit (List α) :=
  if startpos < pos then
    let parentpos := (pos - 1) / 2
    let parent := lget dflt heap parentpos
    match ltE newitem parent with
    | Except.error e => Except.error e
    | Except.ok true => siftdownX (heap.set pos parent) startpos parentpos newitem
    | Except.ok false => Except.ok (heap.set pos newitem)
  else Except.ok (heap.set pos newitem)
termination_by pos
decreasing_by simp_wf; omega

def heappushX (heap : List α) (item : α) : Except Unit (List α) :=
  siftdownX ltE dflt (heap ++ [item]) 0 heap.length item

def siftupLoopX (heap : List α) (pos : Nat) : Except Unit (List α × Nat) :=
  if 2 * pos + 1 < heap.length then
    match (if 2 * pos + 2 < heap.length
           then ltE (lget dflt heap (2 * pos + 1)) (lget dflt heap (2 * pos + 2))
           else Except.ok true) with
    | Except.error e => Except.error e
    | Except.ok cmp =>
      let childpos := if cmp then 2 * pos + 1 else 2 * pos + 2
      siftupLoopX (heap.set pos (lget dflt heap childpos)) childpos
  else Except.ok (heap, pos)
termination_by heap.length - pos
decreasing_by all_goals (simp_wf; split <;> omega)

def siftupX (heap : List α) (pos : Nat) : Except Unit (List α) :=
  let newitem := lget dflt heap pos
  match siftupLoopX ltE dflt heap pos with
  | Except.error e => Except.error e
  | Except.ok wp => siftdownX ltE dflt (wp.1.set wp.2 newitem) pos wp.2 newitem

def heapifyAuxX : List α → Nat → Except Unit (List α)
  | heap, 0 => Except.ok heap
  | heap, (k + 1) =>
    match siftupX ltE dflt heap k with
    | Except.error e => Except.error e
    | Except.ok h1 => heapifyAuxX h1 k

def heapifyX (heap : List α) : Except Unit (List α) :=
  heapifyAuxX ltE dflt heap (heap.length / 2)

end HeapqE

/-! ### The Phase-3 coordinator (`heap_handler.py` + `phase3.py`)

`HeapHandler.price_heap` holds `(price, product_id)` tuples; an omitted
price in an update is Python `None`, so heap entries are `Option Int × Nat`
and the tuple comparison raises TypeError on `None` vs a number (Python
first tests `==`, which is False for `None` vs a float, then `<`, which
raises; two `None`s are equal and fall through to the ids). -/

abbrev HEntry := Option Int × Nat

def dHE : HEntry := (none, 0)

def hentLt (a b : HEntry) : Except Unit Bool :=
  match a.1, b.1 with
  | none, none => Except.ok (decide (a.2 < b.2))
  | some p, some q => Except.ok (if p = q then decide (a.2 < b.2) else decide (p < q))
  | _, _ => Except.error ()

/-- Python dict as an insertion-ordered association list: updating an
existing key keeps its slot, a new key is appended. -/
def dictFind (d : List (Nat × Product)) (k : Nat) : Option Product :=
  match d.find? (fun kv => kv.1 == k) with
  | some kv => some kv.2
  | none => none

def dictSet (d : List (Nat × Product)) (k : Nat) (v : Product) : List (Nat × Product) :=
  if (d.find? (fun kv => kv.1 == k)).isSome
  then d.map (fun kv => if kv.1 == k then (k, v) else kv)
  else d ++ [(k, v)]

def dictErase (d : List (Nat × Product)) (k : Nat) : List (Nat × Product) :=
  d.filter (fun kv => !(kv.1 == k))

/-- `avl_tree.insert(root, price, product)` with the possibly-`None` price
the coordinator passes through.  A `None` price raises TypeError at the
first key comparison, before any mutation.  (On an empty tree CPython would
instead allocate a `None`-keyed node without comparing; that arm is
unreachable in the coordinator flows below — an id in the RecordStore means
an earlier successful add, which inserted into the tree — and is modeled as
the TypeError every later operation on such a node would raise.) -/
def AVL.insertOpt (t : AVL) (price : Option Int) (pr : Product) : Except Unit AVL :=
  match price with
  | some p => Except.ok (AVL.insert t p pr)
  | none => Except.error ()

/-- Outcome of a coordinator branch: normal completion, the printed
duplicate-id / not-found error paths, or an uncaught TypeError (the CLI
catches only ValueError, so a TypeError escapes `run_inventory_management`;
the state alongside `typeErr` is the mutated globals at the raise). -/
inductive Outcome where
  | ok
  | errDup
  | errNotFound
  | typeErr
deriving DecidableEq, Repr

/-- The globals `HeapHandler` reads and writes: `inventory`,
`HeapHandler.price_heap`, `avl_root`. -/
structure HH where
  inventory : List (Nat × Product)
  price_heap : List HEntry
  avl_root : AVL
deriving DecidableEq, Repr

namespace HeapHandler

def add_product_to_heap (product_id : Nat) (price : Option Int)
    (heap : List HEntry) : Except Unit (List HEntry) :=
  heappushX hentLt dHE heap (price, product_id)

/-- `list.remove` raises ValueError when the pair is absent, which the
method catches and prints, leaving the heap alone; otherwise the first
matching pair is removed and the list re-heapified. -/
def remove_product_from_heap (product_id : Nat) (price : Option Int)
    (heap : List HEntry) : Except Unit (List HEntry) :=
  if (price, product_id) ∈ heap
  then heapifyX hentLt dHE (heap.erase (price, product_id))
  else Except.ok heap

def add_product_with_heap (product_id : Nat) (name category : String)
    (price : Int) (quantity : Int) (h : HH) : Outcome × HH :=
  if (dictFind h.inventory product_id).isSome then (Outcome.errDup, h)
  else
    let product : Product := ⟨product_id, name, category, price, quantity⟩
    let inv1 := dictSet h.inventory product_id product
    match add_product_to_heap product_id (some price) h.price_heap with
    | Except.error _ => (Outcome.typeErr, ⟨inv1, h.price_heap, h.avl_root⟩)
    | Except.ok ph1 => (Outcome.ok, ⟨inv1, ph1, AVL.insert h.avl_root price product⟩)

/-- `update_product_with_heap`: blank fields are `None` (or the empty
string, falsy under `if name:`), modeled as `none`.  Note lines 82-83 of
`heap_handler.py` push `(price, product_id)` and call
`avl_tree.insert(avl_root, price, ...)` with the RAW `price` argument,
which is `None` when the price field was omitted. -/
def update_product_with_heap (product_id : Nat) (name category : Option String)
    (price quantity : Option Int) (h : HH) : Outcome × HH :=
  match dictFind h.inventory product_id with
  | none => (Outcome.errNotFound, h)
  | some prod =>
    match remove_product_from_heap product_id (some prod.price) h.price_heap with
    | Except.error _ => (Outcome.typeErr, h)
    | Except.ok ph1 =>
      let prod1 : Product := ⟨prod.id, name.getD prod.name, category.getD prod.category,
        price.getD prod.price, quantity.getD prod.quantity⟩
      let inv1 := dictSet h.inventory product_id prod1
      match add_product_to_heap product_id price ph1 with
      | Except.error _ => (Outcome.typeErr, ⟨inv1, ph1, h.avl_root⟩)
      | Except.ok ph2 =>
        match AVL.insertOpt h.avl_root price prod1 with
        | Except.error _ => (Outcome.typeErr, ⟨inv1, ph2, h.avl_root⟩)
        | Except.ok t1 => (Outcome.ok, ⟨inv1, ph2, t1⟩)

/-- `delete_product_with_heap`: removes the heap pair and the inventory
entry; the AVL tree is left untouched (the source comments "Update AVL tree
accordingly" / "can be updated later if AVL deletions are implemented"). -/
def delete_product_with_heap (product_id : Nat) (h : HH) : Outcome × HH :=
  match dictFind h.inventory product_id with
  | some prod =>
    match remove_product_from_heap product_id (some prod.price) h.price_heap with
    | Except.error _ => (Outcome.typeErr, h)
    | Except.ok ph1 => (Outcome.ok, ⟨dictErase h.inventory product_id, ph1, h.avl_root⟩)
  | none => (Outcome.errNotFound, h)

end HeapHandler

/-- `remove_product` with the Python comparison semantics: both `remove`
calls run before the heapifies, and a ValueError from the second leaves the
min-heap already shortened with no re-heapify (the pure model's middle
branch); a TypeError from a heapify propagates. -/
def DPQ.remove_productE (q : DPQ) (product : Product) : Except Unit DPQ :=
  if (product.price, product) ∈ q.min_heap then
    let min1 := q.min_heap.erase (product.price, product)
    if (-product.price, product) ∈ q.max_heap then
      match heapifyX tupLt dEntry min1 with
      | Except.error e => Except.error e
      | Except.ok m2 =>
        match heapifyX tupLt dEntry (q.max_heap.erase (-product.price, product)) with
        | Except.error e => Except.error e
        | Except.ok x2 => Except.ok ⟨m2, x2⟩
    else Except.ok ⟨min1, q.max_heap⟩
  else Except.ok q

/-- All the coordinator state claims C1-C3 speak about: the RecordStore
(`inventory`), the price heap, the PriceIndex (`avl_root`) and the
DualHeapQueue.  (The add branch also inserts into the AttributeIndex
(`range_tree`), which none of these claims mention.) -/
structure SysState where
  inventory : List (Nat × Product)
  price_heap : List HEntry
  avl_root : AVL
  dpq : DPQ
deriving DecidableEq, Repr

namespace Phase3

/-- `choice == '1'` of `run_inventory_management`: `add_product_with_heap`,
then — unconditionally, even when it reported a duplicate id — the range
tree insert and `double_ended_pq.add_product(product)`. -/
def addChoice (product_id : Nat) (name category : String) (price quantity : Int)
    (s : SysState) : Outcome × SysState :=
  match HeapHandler.add_product_with_heap product_id name category price quantity
      ⟨s.inventory, s.price_heap, s.avl_root⟩ with
  | (Outcome.typeErr, h1) => (Outcome.typeErr, ⟨h1.inventory, h1.price_heap, h1.avl_root, s.dpq⟩)
  | (o, h1) =>
    match DPQ.add_productE s.dpq ⟨product_id, name, category, price, quantity⟩ with
    | Except.error _ => (Outcome.typeErr, ⟨h1.inventory, h1.price_heap, h1.avl_root, s.dpq⟩)
    | Except.ok d1 => (o, ⟨h1.inventory, h1.price_heap, h1.avl_root, d1⟩)

/-- `choice == '2'`: only `update_product_with_heap`; the double-ended
queue (and range tree) are never touched. -/
def updateChoice (product_id : Nat) (name category : Option String)
    (price quantity : Option Int) (s : SysState) : Outcome × SysState :=
  match HeapHandler.update_product_with_heap product_id name category price quantity
      ⟨s.inventory, s.price_heap, s.avl_root⟩ with
  | (o, h1) => (o, ⟨h1.inventory, h1.price_heap, h1.avl_root, s.dpq⟩)

/-- `choice == '3'`: reads the product, then `delete_product_with_heap`,
then `double_ended_pq.remove_product(product)`. -/
def deleteChoice (product_id : Nat) (s : SysState) : Outcome × SysState :=
  match dictFind s.inventory product_id with
  | none => (Outcome.errNotFound, s)
  | some product =>
    match HeapHandler.delete_product_with_heap product_id
        ⟨s.inventory, s.price_heap, s.avl_root⟩ with
    | (Outcome.typeErr, h1) => (Outcome.typeErr, ⟨h1.inventory, h1.price_heap, h1.avl_root, s.dpq⟩)
    | (o, h1) =>
      match DPQ.remove_productE s.dpq product with
      | Except.error _ => (Outcome.typeErr, ⟨h1.inventory, h1.price_heap, h1.avl_root, s.dpq⟩)
      | Except.ok d1 => (o, ⟨h1.inventory, h1.price_heap, h1.avl_root, d1⟩)

end Phase3

def sys0 : SysState := ⟨[], [], AVL.nil, DPQ.empty⟩

/-- The state after `addProduct(301, "Laptop", "Electronics", 100, 10)`. -/
def sys1 : SysState :=
  ⟨[(301, prodA)], [(some 100, 301)], AVL.node 100 prodA AVL.nil AVL.nil 1,
   ⟨[(100, prodA)], [(-100, prodA)]⟩⟩

def dpqDup : DPQ := ⟨[(100, prodA), (100, prodA)], [(-100, prodA), (-100, prodA)]⟩

/-- C1: the add branch is NOT atomic on a duplicate id.
`add_product_with_heap` rejects the duplicate and leaves RecordStore, price
heap and PriceIndex alone, but `run_inventory_management` then calls
`double_ended_pq.add_product(product)` unconditionally, so the DualHeapQueue
receives a second copy of the record — refuting "the dual-heap queue
[is] exactly as before the call". -/
theorem C1_add_atomicity :
    Phase3.addChoice 301 "Laptop" "Electronics" 100 10 sys0 = (Outcome.ok, sys1)
    ∧ Phase3.addChoice 301 "Laptop" "Electronics" 100 10 sys1
        = (Outcome.errDup, ⟨sys1.inventory, sys1.price_heap, sys1.avl_root, dpqDup⟩)
    ∧ dpqDup ≠ sys1.dpq := by
  refine ⟨?_, ?_, by decide⟩
  · simp [Phase3.addChoice, HeapHandler.add_product_with_heap,
      HeapHandler.add_product_to_heap, dictFind, dictSet, heappushX, siftdownX,
      hentLt, dHE, lget, AVL.insert, DPQ.add_productE, heappushE, siftdownE,
      tupLt, dEntry, DPQ.empty, prodA, sys0, sys1]
  · simp [Phase3.addChoice, HeapHandler.add_product_with_heap,
      HeapHandler.add_product_to_heap, dictFind, dictSet, heappushX, siftdownX,
      hentLt, dHE, lget, AVL.insert, DPQ.add_productE, heappushE, siftdownE,
      tupLt, dEntry, prodA, sys1, dpqDup]

def prodA999 : Product := ⟨301, "Laptop", "Electronics", 999, 10⟩

/-- The state after `updateProduct(301, price=999)` from `sys1`. -/
def sys999 : SysState :=
  ⟨[(301, prodA999)], [(some 999, 301)],
   AVL.node 100 prodA AVL.nil (AVL.node 999 prodA999 AVL.nil AVL.nil 1) 2,
   ⟨[(100, prodA)], [(-100, prodA)]⟩⟩

/-- C2: the update branch is broken in two ways.  (1) With the price field
omitted, `update_product_with_heap` removes the old entry but then pushes
the raw argument — `(None, 301)`, not the record's unchanged price 100 —
into the price heap, and the subsequent `avl_tree.insert(avl_root, None,
...)` raises an uncaught TypeError, crashing the CLI with the heap
corrupted.  (2) With a new price supplied the call completes, but the
update branch never touches the DualHeapQueue, so the entry at the prior
price 100 is still exactly what `peekMin` retrieves — refuting "no heap
entry at the prior price remains retrievable via peekMin/peekMax". -/
theorem C2_update_semantics :
    Phase3.updateChoice 301 none none none none sys1
      = (Outcome.typeErr, ⟨sys1.inventory, [(none, 301)], sys1.avl_root, sys1.dpq⟩)
    ∧ ((some (100 : Int), (301 : Nat)) ∉ [((none : Option Int), (301 : Nat))])
    ∧ Phase3.updateChoice 301 none none (some 999) none sys1 = (Outcome.ok, sys999)
    ∧ sys999.dpq = sys1.dpq
    ∧ DPQ.get_lowest_price_product sys999.dpq = some prodA
    ∧ prodA.price = 100 := by
  refine ⟨?_, by decide, ?_, by decide, by decide, by decide⟩
  · simp [Phase3.updateChoice, HeapHandler.update_product_with_heap,
      HeapHandler.remove_product_from_heap, HeapHandler.add_product_to_heap,
      dictFind, dictSet, heappushX, siftdownX, heapifyX, heapifyAuxX,
      hentLt, dHE, lget, AVL.insertOpt, prodA, sys1]
  · simp [Phase3.updateChoice, HeapHandler.update_product_with_heap,
      HeapHandler.remove_product_from_heap, HeapHandler.add_product_to_heap,
      dictFind, dictSet, heappushX, siftdownX, heapifyX, heapifyAuxX,
      hentLt, dHE, lget, AVL.insertOpt, AVL.insert, AVL.balanceAfter,
      AVL.get_height, AVL.get_balance, AVL.lt_root_key, AVL.gt_root_key,
      prodA, prodA999, sys1, sys999]

theorem dictFind_dictErase (d : List (Nat × Product)) (k : Nat) :
    dictFind (dictErase d k) k = none := by
  have h : List.find? (fun kv => kv.1 == k) (dictErase d k) = none := by
    apply List.find?_eq_none.mpr
    intro x hx
    have hx2 : x ∈ List.filter (fun kv => !(kv.1 == k)) d := hx
    simpa using List.of_mem_filter hx2
  rw [dictFind, h]

/-- C3 counterexample: deleting product 301 (price 100) empties the
RecordStore, the price heap and the DualHeapQueue, but the PriceIndex
still contains its node keyed 100 — `delete_product_with_heap` never
touches the AVL tree. -/
theorem C3_counterexample :
    Phase3.deleteChoice 301 sys1 = (Outcome.ok, ⟨[], [], sys1.avl_root, ⟨[], []⟩⟩)
    ∧ 100 ∈ AVL.keys sys1.avl_root := by
  refine ⟨?_, by decide⟩
  simp [Phase3.deleteChoice, HeapHandler.delete_product_with_heap,
    HeapHandler.remove_product_from_heap, dictFind, dictErase, heapifyX,
    heapifyAuxX, DPQ.remove_productE, prodA, sys1, List.erase_cons]

/-- C3 (amended): for an id present in the RecordStore, the delete branch
removes the RecordStore entry (the id no longer resolves), removes the
matching price-heap pair and re-heapifies, and removes the record from the
DualHeapQueue — but returns the PriceIndex root UNCHANGED, node included
(the source defers AVL deletion: "can be updated later if AVL deletions are
implemented"); for an absent id it reports not-found and changes nothing. -/
theorem C3_delete_semantics :
    (∀ (s : SysState) (id : Nat) (product : Product) (h1 : List HEntry) (d1 : DPQ),
        dictFind s.inventory id = some product →
        HeapHandler.remove_product_from_heap id (some product.price) s.price_heap
          = Except.ok h1 →
        DPQ.remove_productE s.dpq product = Except.ok d1 →
        Phase3.deleteChoice id s
          = (Outcome.ok, ⟨dictErase s.inventory id, h1, s.avl_root, d1⟩)
        ∧ dictFind (dictErase s.inventory id) id = none)
    ∧ (∀ (s : SysState) (id : Nat), dictFind s.inventory id = none →
        Phase3.deleteChoice id s = (Outcome.errNotFound, s)) := by
  constructor
  · intro s id product h1 d1 hfind hrem hdpq
    refine ⟨?_, dictFind_dictErase s.inventory id⟩
    rw [Phase3.deleteChoice, hfind]
    dsimp only
    rw [HeapHandler.delete_product_with_heap]
    dsimp only
    rw [hfind]
    dsimp only
    rw [hrem]
    dsimp only
    rw [hdpq]
  · intro s id hfind
    rw [Phase3.deleteChoice, hfind]

/-- C3 witness: the amended theorem applied to the one-product state; both
side-condition heapifies run on emptied lists and succeed. -/
theorem C3_delete_semantics_witness :
    dictFind sys1.inventory 301 = some prodA
    ∧ HeapHandler.remove_product_from_heap 301 (some prodA.price) sys1.price_heap
        = Except.ok []
    ∧ DPQ.remove_productE sys1.dpq prodA = Except.ok ⟨[], []⟩
    ∧ (Phase3.deleteChoice 301 sys1
        = (Outcome.ok, ⟨dictErase sys1.inventory 301, [], sys1.avl_root, ⟨[], []⟩⟩)
      ∧ dictFind (dictErase sys1.inventory 301) 301 = none) :=
  ⟨by simp [dictFind, sys1],
   by simp [HeapHandler.remove_product_from_heap, heapifyX, heapifyAuxX, prodA,
      sys1, List.erase_cons],
   by simp [DPQ.remove_productE, heapifyX, heapifyAuxX, prodA, sys1, List.erase_cons],
   C3_delete_semantics.1 sys1 301 prodA [] ⟨[], []⟩
     (by simp [dictFind, sys1])
     (by simp [HeapHandler.remove_product_from_heap, heapifyX, heapifyAuxX, prodA,
        sys1, List.erase_cons])
     (by simp [DPQ.remove_productE, heapifyX, heapifyAuxX, prodA, sys1, List.erase_cons])⟩
